import Mathlib

/-!
Verification of the smooth-crub text-diagram engine against its
natural-language specification.  The TypeScript source (class SmoothScrub)
is shallowly embedded here: strings become `List Char` (the code-point
fallback branch of `splitGraphemes`, i.e. `Array.from(text)`), JS numbers
that the relevant code paths only ever use at integer values become `Int`
or `Nat`, and the one throwing operation reachable from `autoFormat`
(`String.repeat` on a negative count) is modelled with `Except`.
-/

namespace SmoothScrub

/-! ## JS character classes -/

/-- JS whitespace (the `\s` class and the `String.trim` set): space, tab,
LF, VT, FF, CR, NBSP, and the Unicode space separators including U+FEFF. -/
def jsWs (c : Char) : Bool :=
  decide (c.toNat = 32) || decide (c.toNat = 9) || decide (c.toNat = 10) ||
  decide (c.toNat = 11) || decide (c.toNat = 12) || decide (c.toNat = 13) ||
  decide (c.toNat = 0xA0) || decide (c.toNat = 0x1680) ||
  (decide (0x2000 ≤ c.toNat) && decide (c.toNat ≤ 0x200A)) ||
  decide (c.toNat = 0x2028) || decide (c.toNat = 0x2029) ||
  decide (c.toNat = 0x202F) || decide (c.toNat = 0x205F) ||
  decide (c.toNat = 0x3000) || decide (c.toNat = 0xFEFF)

/-- The zero-width characters removed up front by `autoFormat` and `render`:
the regex `[​-‍﻿]`. -/
def isZw (c : Char) : Bool :=
  (decide (0x200B ≤ c.toNat) && decide (c.toNat ≤ 0x200D)) || decide (c.toNat = 0xFEFF)

/-- ASCII letter, the `[a-zA-Z]` class used for marker keys. -/
def asciiAlpha (c : Char) : Bool :=
  (decide (97 ≤ c.toNat) && decide (c.toNat ≤ 122)) ||
  (decide (65 ≤ c.toNat) && decide (c.toNat ≤ 90))

/-- Hex digit, the `[0-9a-f]` class with the `i` flag. -/
def isHexDigit (c : Char) : Bool :=
  (decide (48 ≤ c.toNat) && decide (c.toNat ≤ 57)) ||
  (decide (97 ≤ c.toNat) && decide (c.toNat ≤ 102)) ||
  (decide (65 ≤ c.toNat) && decide (c.toNat ≤ 70))

/-- The characters rejected by `isSafeColorValue`, regex `[();{}]`. -/
def forbiddenColorChar (c : Char) : Bool :=
  decide (c.toNat = 40) || decide (c.toNat = 41) || decide (c.toNat = 123) ||
  decide (c.toNat = 125) || decide (c.toNat = 59)

/-- JS `String.trim`: drop JS whitespace from both ends. -/
def jsTrim (l : List Char) : List Char :=
  ((l.dropWhile jsWs).reverse.dropWhile jsWs).reverse

/-- The per-line `replace(/\r$/, '')` applied before marker parsing. -/
def crStrip (l : List Char) : List Char :=
  match l.getLast? with
  | some c => if c = '\r' then l.dropLast else l
  | none => l

/-! ## Splitting on newlines -/

/-- JS `String.split('\n')` over a character list. -/
def splitOnNl : List Char → List (List Char)
  | [] => [[]]
  | c :: rest =>
    if c = '\n' then [] :: splitOnNl rest
    else
      match splitOnNl rest with
      | [] => [[c]]
      | l :: ls => (c :: l) :: ls

/-- JS `Array.join('\n')` over character lists. -/
def joinNl : List (List Char) → List Char
  | [] => []
  | [l] => l
  | l :: ls => l ++ '\n' :: joinNl ls

/-! ## The marker scanner: `COLOR_MARKER_REGEX` and `parseLineMarkers` -/

/-- Split a character list at the first closing brace, returning the
segment before it and the remainder after it (the semantics of the lazy
value group `([^}]+?)\s*\}` of `COLOR_MARKER_REGEX`: the match always
closes at the first brace after the colon). -/
def splitAtClose : List Char → Option (List Char × List Char)
  | [] => none
  | c :: rest =>
    if c = '}' then some ([], rest)
    else
      match splitAtClose rest with
      | some (r, t) => some (c :: r, t)
      | none => none

/-- One attempt of `COLOR_MARKER_REGEX` anchored at the head of the input:
open brace, whitespace, hash, a nonempty ASCII-letter key, whitespace,
colon, then at least one non-brace character up to the first closing
brace.  Returns the key, the trimmed raw value (the regex's lazy capture
followed by `.trim()` always equals the trim of the region between the
colon and the first closing brace), and the unconsumed remainder. -/
def tryMatch : List Char → Option (List Char × List Char × List Char)
  | [] => none
  | c :: t =>
    if c ≠ '{' then none
    else
      match t.dropWhile jsWs with
      | [] => none
      | h :: t2 =>
        if h ≠ '#' then none
        else if (t2.takeWhile asciiAlpha).isEmpty then none
        else
          match (t2.dropWhile asciiAlpha).dropWhile jsWs with
          | [] => none
          | h2 :: t4 =>
            if h2 ≠ ':' then none
            else
              match splitAtClose t4 with
              | none => none
              | some (region, rest) =>
                if region.isEmpty then none
                else some (t2.takeWhile asciiAlpha, jsTrim region, rest)

/-- A style marker as produced by `parseLineMarkers`: lowercased key,
trimmed safe value, and visible (post-strip) column index. -/
structure Marker where
  key : List Char
  value : List Char
  index : Nat
  deriving DecidableEq, Repr

/-- Result of `parseLineMarkers`. -/
structure ParsedLine where
  clean : List Char
  markers : List Marker
  had : Bool
  deriving DecidableEq, Repr

/-- The CSS named-color allow-list `CSS_NAMED_COLORS`. -/
def namedColors : List (List Char) :=
  ["aliceblue", "antiquewhite", "aqua", "aquamarine", "azure", "beige",
   "bisque", "black", "blanchedalmond", "blue", "blueviolet", "brown",
   "burlywood", "cadetblue", "chartreuse", "chocolate", "coral",
   "cornflowerblue", "cornsilk", "crimson", "cyan", "darkblue", "darkcyan",
   "darkgoldenrod", "darkgray", "darkgreen", "darkgrey", "darkkhaki",
   "darkmagenta", "darkolivegreen", "darkorange", "darkorchid", "darkred",
   "darksalmon", "darkseagreen", "darkslateblue", "darkslategray",
   "darkslategrey", "darkturquoise", "darkviolet", "deeppink",
   "deepskyblue", "dimgray", "dimgrey", "dodgerblue", "firebrick",
   "floralwhite", "forestgreen", "fuchsia", "gainsboro", "ghostwhite",
   "gold", "goldenrod", "gray", "green", "greenyellow", "grey", "honeydew",
   "hotpink", "indianred", "indigo", "ivory", "khaki", "lavender",
   "lavenderblush", "lawngreen", "lemonchiffon", "lightblue", "lightcoral",
   "lightcyan", "lightgoldenrodyellow", "lightgray", "lightgreen",
   "lightgrey", "lightpink", "lightsalmon", "lightseagreen",
   "lightskyblue", "lightslategray", "lightslategrey", "lightsteelblue",
   "lightyellow", "lime", "limegreen", "linen", "magenta", "maroon",
   "mediumaquamarine", "mediumblue", "mediumorchid", "mediumpurple",
   "mediumseagreen", "mediumslateblue", "mediumspringgreen",
   "mediumturquoise", "mediumvioletred", "midnightblue", "mintcream",
   "mistyrose", "moccasin", "navajowhite", "navy", "oldlace", "olive",
   "olivedrab", "orange", "orangered", "orchid", "palegoldenrod",
   "palegreen", "paleturquoise", "palevioletred", "papayawhip",
   "peachpuff", "peru", "pink", "plum", "powderblue", "purple",
   "rebeccapurple", "red", "rosybrown", "royalblue", "saddlebrown",
   "salmon", "sandybrown", "seagreen", "seashell", "sienna", "silver",
   "skyblue", "slateblue", "slategray", "slategrey", "snow", "springgreen",
   "steelblue", "tan", "teal", "thistle", "tomato", "turquoise", "violet",
   "wheat", "white", "whitesmoke", "yellow", "yellowgreen"].map String.data

/-- JS `String.toLowerCase` restricted to the reachable inputs (marker
keys are matched by `[a-zA-Z]`, where `Char.toLower` agrees with JS). -/
def toLowerList (l : List Char) : List Char := l.map Char.toLower

/-- One recursive step of the regex test `/url\s*\(/i` at the head. -/
def urlAtHead : List Char → Bool
  | u :: r :: l :: rest =>
    decide (u.toLower = 'u') && decide (r.toLower = 'r') &&
    decide (l.toLower = 'l') &&
    (match rest.dropWhile jsWs with
     | c :: _ => decide (c = '(')
     | [] => false)
  | _ => false

/-- The regex test `/url\s*\(/i` over the whole string. -/
def urlTest : List Char → Bool
  | [] => false
  | c :: rest => urlAtHead (c :: rest) || urlTest rest

/-- Regex `^#[0-9a-f]{3}$/i`. -/
def isHex3 : List Char → Bool
  | ['#', a, b, c] => isHexDigit a && isHexDigit b && isHexDigit c
  | _ => false

/-- Regex `^#[0-9a-f]{6}$/i`. -/
def isHex6 : List Char → Bool
  | ['#', a, b, c, d, e, f] =>
    isHexDigit a && isHexDigit b && isHexDigit c && isHexDigit d &&
    isHexDigit e && isHexDigit f
  | _ => false

/-- `SmoothScrub.isSafeColorValue`: trim, reject empty / `url(` / any of
`( ) { } ;`, accept 3- or 6-digit hex or an allow-listed named color. -/
def isSafeColorValue (v : List Char) : Bool :=
  let t := jsTrim v
  if t.isEmpty then false
  else if urlTest t then false
  else if t.any forbiddenColorChar then false
  else if isHex3 t then true
  else if isHex6 t then true
  else if t.all asciiAlpha then namedColors.contains (toLowerList t)
  else false

/-- The three accepted marker keys (`bg`, `stroke`, `color`). -/
def validKey (k : List Char) : Bool :=
  decide (k = "bg".data) || decide (k = "stroke".data) || decide (k = "color".data)

/-- Fueled scanner behind `parseLineMarkers`: iterate `matchAll` over
`COLOR_MARKER_REGEX`, accumulating the clean line, the accepted markers
(valid key and safe value only) with their visible column index, and the
`hadMarkers` flag.  Fuel at least the input length makes it total. -/
def scanMarkers : Nat → List Char → Nat → ParsedLine
  | 0, cs, _ => ⟨cs, [], false⟩
  | fuel + 1, cs, idx =>
    match cs with
    | [] => ⟨[], [], false⟩
    | c :: rest =>
      match tryMatch (c :: rest) with
      | some (key, value, after) =>
        let p := scanMarkers fuel after idx
        let lkey := toLowerList key
        if validKey lkey && isSafeColorValue value then
          ⟨p.clean, ⟨lkey, value, idx⟩ :: p.markers, true⟩
        else ⟨p.clean, p.markers, true⟩
      | none =>
        let p := scanMarkers fuel rest (idx + 1)
        ⟨c :: p.clean, p.markers, p.had⟩

/-- `SmoothScrub.parseLineMarkers` over a character list. -/
def parseLineMarkers (cs : List Char) : ParsedLine :=
  scanMarkers cs.length cs 0

/-! ## Marker re-injection: `injectMarkersIntoLine` -/

/-- The literal text re-inserted for a marker. -/
def markerChunk (m : Marker) : List Char :=
  '{' :: '#' :: (m.key ++ ':' :: (m.value ++ ['}']))

/-- Stable insertion into a list sorted by index, mirroring the stable JS
`sort((a, b) => a.index - b.index)`. -/
def insertMarker (m : Marker) : List Marker → List Marker
  | [] => [m]
  | x :: xs => if m.index ≤ x.index then m :: x :: xs else x :: insertMarker m xs

/-- Stable sort by `index` (JS `Array.sort` is stable). -/
def sortMarkers : List Marker → List Marker
  | [] => []
  | m :: ms => insertMarker m (sortMarkers ms)

/-- One `Array.splice(insertAt, 0, chunk)` on the grapheme array, where a
re-inserted marker counts as a single array element. -/
def spliceAt (gs : List (List Char)) (pos : Nat) (chunk : List Char) : List (List Char) :=
  gs.take pos ++ chunk :: gs.drop pos

/-- The `sortedMarkers.forEach` loop of `injectMarkersIntoLine`: each
marker is spliced at its recorded column plus the number of previously
inserted chunks, clamped to the current array length. -/
def injectFold : List (List Char) → List Marker → Nat → List (List Char)
  | gs, [], _ => gs
  | gs, m :: ms, off =>
    injectFold (spliceAt gs (min gs.length (m.index + off)) (markerChunk m)) ms (off + 1)

/-- `SmoothScrub.injectMarkersIntoLine` over a character list. -/
def injectMarkersIntoLine (clean : List Char) (ms : List Marker) : List Char :=
  if ms.isEmpty then clean
  else (injectFold (clean.map (fun c => [c])) (sortMarkers ms) 0).flatten

/-! ## Mode detection: `RICH_MODE_DETECTOR` and its call sites -/

/-- The box-drawing glyphs of `RICH_MODE_DETECTOR`. -/
def boxGlyphs : List Char :=
  ['─', '│', '┌', '┐', '└', '┘', '├', '┤', '┬', '┴', '┼', '║']

/-- `SmoothScrub.detectRichMode`: the regex test of `RICH_MODE_DETECTOR`. -/
def detectRichMode (cs : List Char) : Bool :=
  cs.any (fun c => boxGlyphs.contains c)

/-- The document text that `render` and `autoFormat` actually pass to
`detectRichMode`: zero-width characters removed, lines split, carriage
returns trimmed, markers stripped, and the clean lines re-joined. -/
def cleanDocOf (s : List Char) : List Char :=
  joinNl ((splitOnNl (s.filter (fun c => !isZw c))).map
    (fun l => (parseLineMarkers (crStrip l)).clean))

/-- Rich-mode detection as performed once per top-level `render` or
`autoFormat` call. -/
def richModeOfCall (s : List Char) : Bool :=
  detectRichMode (cleanDocOf s)

/-! ## Basic lemmas about trimming and character classes -/

theorem mem_dropWhile_of_not {α : Type} (p : α → Bool) {x : α} :
    ∀ {l : List α}, x ∈ l → p x = false → x ∈ l.dropWhile p
  | [], h, _ => absurd h (by simp)
  | a :: t, h, hx => by
    by_cases ha : p a = true
    · rw [List.dropWhile_cons_of_pos ha]
      rcases List.mem_cons.mp h with rfl | ht
      · rw [hx] at ha; exact absurd ha (by simp)
      · exact mem_dropWhile_of_not p ht hx
    · rw [List.dropWhile_cons_of_neg ha]
      exact h

theorem mem_jsTrim {c : Char} {l : List Char} (h : c ∈ l) (hc : jsWs c = false) :
    c ∈ jsTrim l := by
  unfold jsTrim
  rw [List.mem_reverse]
  apply mem_dropWhile_of_not _ _ hc
  rw [List.mem_reverse]
  exact mem_dropWhile_of_not _ h hc

theorem dropWhile_eq_self_of_none {α : Type} (p : α → Bool) {l : List α}
    (h : ∀ x ∈ l, p x = false) : l.dropWhile p = l := by
  cases l with
  | nil => rfl
  | cons a t => exact List.dropWhile_cons_of_neg (by simp [h a (by simp)])

theorem jsTrim_eq_self {l : List Char} (h : ∀ c ∈ l, jsWs c = false) :
    jsTrim l = l := by
  unfold jsTrim
  rw [dropWhile_eq_self_of_none jsWs h,
      dropWhile_eq_self_of_none jsWs (by intro x hx; exact h x (List.mem_reverse.mp hx)),
      List.reverse_reverse]

theorem urlAtHead_paren {l : List Char} (h : urlAtHead l = true) : '(' ∈ l := by
  match l with
  | [] => simp [urlAtHead] at h
  | [a] => simp [urlAtHead] at h
  | [a, b] => simp [urlAtHead] at h
  | u :: r :: lc :: rest =>
    simp only [urlAtHead, Bool.and_eq_true] at h
    obtain ⟨-, hmatch⟩ := h
    cases hd : rest.dropWhile jsWs with
    | nil => rw [hd] at hmatch; simp at hmatch
    | cons c tail =>
      rw [hd] at hmatch
      simp only [decide_eq_true_eq] at hmatch
      subst hmatch
      have : '(' ∈ rest := (List.dropWhile_suffix jsWs).subset (hd ▸ List.mem_cons_self _ _)
      simp [this]

theorem urlTest_eq_false {l : List Char} (h : '(' ∉ l) : urlTest l = false := by
  induction l with
  | nil => rfl
  | cons c rest ih =>
    rw [urlTest]
    have h1 : urlAtHead (c :: rest) = false := by
      by_contra hh
      exact h (urlAtHead_paren (Bool.of_not_eq_false hh))
    rw [h1, ih (fun hm => h (List.mem_cons_of_mem _ hm))]
    rfl

theorem hexDigit_props {c : Char} (h : isHexDigit c = true) :
    jsWs c = false ∧ forbiddenColorChar c = false ∧ c ≠ '(' := by
  simp only [isHexDigit, Bool.or_eq_true, Bool.and_eq_true, decide_eq_true_eq] at h
  refine ⟨?_, ?_, ?_⟩
  · simp only [jsWs, Bool.or_eq_false_iff, Bool.and_eq_false_iff, decide_eq_false_iff_not]
    omega
  · simp only [forbiddenColorChar, Bool.or_eq_false_iff, decide_eq_false_iff_not]
    omega
  · intro hc; subst hc; revert h; decide

theorem alpha_props {c : Char} (h : asciiAlpha c = true) :
    jsWs c = false ∧ forbiddenColorChar c = false ∧ c ≠ '(' ∧ c ≠ '#' := by
  simp only [asciiAlpha, Bool.or_eq_true, Bool.and_eq_true, decide_eq_true_eq] at h
  refine ⟨?_, ?_, ?_, ?_⟩
  · simp only [jsWs, Bool.or_eq_false_iff, Bool.and_eq_false_iff, decide_eq_false_iff_not]
    omega
  · simp only [forbiddenColorChar, Bool.or_eq_false_iff, decide_eq_false_iff_not]
    omega
  · intro hc; subst hc; revert h; decide
  · intro hc; subst hc; revert h; decide

theorem isHex3_hash {v : List Char} (h : isHex3 v = true) : '#' ∈ v := by
  unfold isHex3 at h
  split at h
  · simp
  · exact absurd h (by simp)

theorem isHex6_hash {v : List Char} (h : isHex6 v = true) : '#' ∈ v := by
  unfold isHex6 at h
  split at h
  · simp
  · exact absurd h (by simp)

/-! ## Lemmas about the marker scanner -/

theorem splitAtClose_eq {l r t : List Char} (h : splitAtClose l = some (r, t)) :
    l = r ++ '}' :: t ∧ '}' ∉ r := by
  induction l generalizing r with
  | nil => exact absurd h (by simp [splitAtClose])
  | cons c rest ih =>
    rw [splitAtClose] at h
    by_cases hc : c = '}'
    · rw [if_pos hc] at h
      obtain ⟨rfl, rfl⟩ := by simpa using h
      simp [hc]
    · rw [if_neg hc] at h
      cases hs : splitAtClose rest with
      | none => rw [hs] at h; exact absurd h (by simp)
      | some p =>
        obtain ⟨r0, t0⟩ := p
        rw [hs] at h
        obtain ⟨rfl, rfl⟩ := by simpa using h
        obtain ⟨he, hn⟩ := ih hs
        constructor
        · rw [List.cons_append, ← he]
        · simp only [List.mem_cons, not_or]
          exact ⟨fun hh => hc hh.symm, hn⟩

theorem suffix_cons {α : Type} (a : α) (l : List α) : l <:+ (a :: l) := ⟨[a], rfl⟩

theorem tryMatch_some {cs k v rest : List Char}
    (h : tryMatch cs = some (k, v, rest)) :
    ∃ pre, cs = pre ++ rest ∧ '{' ∈ pre ∧ rest.length < cs.length := by
  match cs with
  | [] => exact absurd h (by simp [tryMatch])
  | c :: t =>
    rw [tryMatch] at h
    split at h
    · exact absurd h (by simp)
    next hcne =>
    have hc : c = '{' := by simpa using hcne
    split at h
    · exact absurd h (by simp)
    next h1 t2 hd1 =>
    split at h
    · exact absurd h (by simp)
    split at h
    · exact absurd h (by simp)
    split at h
    · exact absurd h (by simp)
    next h2 t4 hd2 =>
    split at h
    · exact absurd h (by simp)
    split at h
    · exact absurd h (by simp)
    next region rest0 hsp =>
    split at h
    · exact absurd h (by simp)
    obtain ⟨rfl, rfl, rfl⟩ := by simpa using h
    have s1 : (h1 :: t2) <:+ t := hd1 ▸ List.dropWhile_suffix jsWs
    have s2 : t2 <:+ t := (suffix_cons h1 t2).trans s1
    have s3 : (h2 :: t4) <:+ t2 :=
      hd2 ▸ ((List.dropWhile_suffix jsWs).trans (List.dropWhile_suffix asciiAlpha))
    have s4 : t4 <:+ t2 := (suffix_cons h2 t4).trans s3
    have s5 : rest0 <:+ t4 := by
      obtain ⟨he, -⟩ := splitAtClose_eq hsp
      exact ⟨region ++ ['}'], by simpa using he.symm⟩
    have s6 : rest0 <:+ t := (s5.trans s4).trans s2
    have hlen : rest0.length ≤ t.length := List.IsSuffix.length_le s6
    obtain ⟨pre0, hpre0⟩ := s6
    refine ⟨c :: pre0, ?_, ?_, ?_⟩
    · rw [← hpre0]; rfl
    · simp [hc]
    · simp only [List.length_cons]
      omega

theorem scanMarkers_nil (f idx : Nat) : scanMarkers f [] idx = ⟨[], [], false⟩ := by
  cases f <;> rfl

theorem tryMatch_none_of_ne {c : Char} (t : List Char) (hc : c ≠ '{') :
    tryMatch (c :: t) = none := by
  rw [tryMatch, if_pos (by simpa using hc)]

theorem scanMarkers_cons_some {f : Nat} {c : Char} {rest k v after : List Char} {idx : Nat}
    (hm : tryMatch (c :: rest) = some (k, v, after)) :
    scanMarkers (f + 1) (c :: rest) idx =
      if validKey (toLowerList k) && isSafeColorValue v then
        ⟨(scanMarkers f after idx).clean,
         ⟨toLowerList k, v, idx⟩ :: (scanMarkers f after idx).markers, true⟩
      else ⟨(scanMarkers f after idx).clean, (scanMarkers f after idx).markers, true⟩ := by
  rw [scanMarkers, hm]

theorem scanMarkers_cons_none {f : Nat} {c : Char} {rest : List Char} {idx : Nat}
    (hm : tryMatch (c :: rest) = none) :
    scanMarkers (f + 1) (c :: rest) idx =
      ⟨c :: (scanMarkers f rest (idx + 1)).clean, (scanMarkers f rest (idx + 1)).markers,
       (scanMarkers f rest (idx + 1)).had⟩ := by
  rw [scanMarkers, hm]

theorem scanMarkers_fuel {f g : Nat} :
    ∀ {cs : List Char} {idx : Nat}, cs.length ≤ f → cs.length ≤ g →
      scanMarkers f cs idx = scanMarkers g cs idx := by
  induction f generalizing g with
  | zero =>
    intro cs idx hf _
    rw [List.length_eq_zero.mp (Nat.le_zero.mp hf), scanMarkers_nil, scanMarkers_nil]
  | succ f0 ih =>
    intro cs idx hf hg
    cases cs with
    | nil => rw [scanMarkers_nil, scanMarkers_nil]
    | cons c rest =>
      cases g with
      | zero => exact absurd hg (by simp)
      | succ g0 =>
        cases hm : tryMatch (c :: rest) with
        | some p =>
          obtain ⟨k, v, after⟩ := p
          obtain ⟨pre, heq, -, hlt⟩ := tryMatch_some hm
          have h1 : after.length ≤ f0 := by
            simp only [List.length_cons] at hf hlt ⊢; omega
          have h2 : after.length ≤ g0 := by
            simp only [List.length_cons] at hg hlt ⊢; omega
          rw [scanMarkers_cons_some hm, scanMarkers_cons_some hm, ih h1 h2]
        | none =>
          have h1 : rest.length ≤ f0 := by simp only [List.length_cons] at hf; omega
          have h2 : rest.length ≤ g0 := by simp only [List.length_cons] at hg; omega
          rw [scanMarkers_cons_none hm, scanMarkers_cons_none hm, ih h1 h2]

theorem scanMarkers_no_brace {f : Nat} :
    ∀ {cs : List Char} {idx : Nat}, '{' ∉ cs → cs.length ≤ f →
      scanMarkers f cs idx = ⟨cs, [], false⟩ := by
  induction f with
  | zero =>
    intro cs idx _ hf
    rw [List.length_eq_zero.mp (Nat.le_zero.mp hf), scanMarkers_nil]
  | succ f0 ih =>
    intro cs idx hb hf
    cases cs with
    | nil => exact scanMarkers_nil _ _
    | cons c rest =>
      rw [scanMarkers_cons_none
            (tryMatch_none_of_ne rest (fun hc => hb (hc ▸ List.mem_cons_self c rest))),
          ih (fun hm => hb (List.mem_cons_of_mem c hm))
            (by simp only [List.length_cons] at hf; omega)]

theorem scanMarkers_count {f : Nat} :
    ∀ {cs : List Char} {idx : Nat}, cs.length ≤ f →
      (scanMarkers f cs idx).clean.count '{' +
        (if (scanMarkers f cs idx).had then 1 else 0) ≤ cs.count '{' := by
  induction f with
  | zero =>
    intro cs idx hf
    rw [List.length_eq_zero.mp (Nat.le_zero.mp hf), scanMarkers_nil]
    simp
  | succ f0 ih =>
    intro cs idx hf
    cases cs with
    | nil => rw [scanMarkers_nil]; simp
    | cons c rest =>
      cases hm : tryMatch (c :: rest) with
      | some p =>
        obtain ⟨k, v, after⟩ := p
        obtain ⟨pre, heq, hbr, hlt⟩ := tryMatch_some hm
        have hfa : after.length ≤ f0 := by
          simp only [List.length_cons] at hf hlt ⊢; omega
        have hcount : (c :: rest).count '{' = pre.count '{' + after.count '{' := by
          rw [heq, List.count_append]
        have hpre : 1 ≤ pre.count '{' := List.one_le_count_iff.mpr hbr
        have hih := @ih after idx hfa
        rw [scanMarkers_cons_some hm]
        by_cases hv : (validKey (toLowerList k) && isSafeColorValue v) = true
        · rw [if_pos hv]
          simp only [if_true]
          by_cases hh : (scanMarkers f0 after idx).had <;> simp [hh] at hih <;> omega
        · rw [if_neg hv]
          simp only [if_true]
          by_cases hh : (scanMarkers f0 after idx).had <;> simp [hh] at hih <;> omega
      | none =>
        have hfr : rest.length ≤ f0 := by simp only [List.length_cons] at hf; omega
        have hih := @ih rest (idx + 1) hfr
        rw [scanMarkers_cons_none hm]
        simp only [List.count_cons]
        by_cases hh : (scanMarkers f0 rest (idx + 1)).had <;>
          simp [hh] at hih ⊢ <;> omega

theorem scanMarkers_had_false {f : Nat} :
    ∀ {cs : List Char} {idx : Nat}, cs.length ≤ f →
      (scanMarkers f cs idx).had = false → (scanMarkers f cs idx).clean = cs := by
  induction f with
  | zero =>
    intro cs idx hf _
    rw [List.length_eq_zero.mp (Nat.le_zero.mp hf), scanMarkers_nil]
  | succ f0 ih =>
    intro cs idx hf hh
    cases cs with
    | nil => rw [scanMarkers_nil]
    | cons c rest =>
      cases hm : tryMatch (c :: rest) with
      | some p =>
        obtain ⟨k, v, after⟩ := p
        rw [scanMarkers_cons_some hm] at hh
        by_cases hv : (validKey (toLowerList k) && isSafeColorValue v) = true
        · rw [if_pos hv] at hh; exact absurd hh (by simp)
        · rw [if_neg hv] at hh; exact absurd hh (by simp)
      | none =>
        rw [scanMarkers_cons_none hm] at hh ⊢
        simp only [ParsedLine.clean] at hh ⊢
        rw [ih (by simp only [List.length_cons] at hf; omega) hh]

/-! ## Claim C1: color-value safety -/

theorem isSafe_of_good_chars {v : List Char} (hne : v ≠ [])
    (hchars : ∀ c ∈ v, jsWs c = false ∧ forbiddenColorChar c = false ∧ c ≠ '(') :
    jsTrim v = v ∧ urlTest v = false ∧ v.any forbiddenColorChar = false := by
  refine ⟨jsTrim_eq_self (fun c hc => (hchars c hc).1), ?_, ?_⟩
  · exact urlTest_eq_false (fun hp => (hchars '(' hp).2.2 rfl)
  · rw [List.any_eq_false]
    intro c hc
    simp [(hchars c hc).2.1]

/-- Claim C1: for every 3- or 6-digit hex color and every string of ASCII
letters whose lowercasing is on the CSS named-color allow-list,
`isSafeColorValue` returns `true`; and for every string containing one of
the characters `( ) { } ;` (which subsumes any string containing the
substring `url(`), `isSafeColorValue` returns `false`. -/
theorem c1_color_safety :
    (∀ v : List Char,
       (isHex3 v = true ∨ isHex6 v = true ∨
        (v ≠ [] ∧ v.all asciiAlpha = true ∧ namedColors.contains (toLowerList v) = true)) →
       isSafeColorValue v = true) ∧
    (∀ v : List Char, ∀ c, c ∈ v → c ∈ ['(', ')', '{', '}', ';'] →
       isSafeColorValue v = false) := by
  constructor
  · intro v hv
    have hgood : v ≠ [] ∧ (∀ c ∈ v, jsWs c = false ∧ forbiddenColorChar c = false ∧ c ≠ '(') := by
      rcases hv with h3 | h6 | ⟨hne, hall, -⟩
      · unfold isHex3 at h3
        split at h3
        · next heq =>
          simp only [Bool.and_eq_true] at h3
          obtain ⟨⟨ha, hb⟩, hc⟩ := h3
          refine ⟨by simp, ?_⟩
          intro c hcmem
          simp only [List.mem_cons, List.not_mem_nil, or_false] at hcmem
          rcases hcmem with rfl | rfl | rfl | rfl
          · exact ⟨by decide, by decide, by decide⟩
          · exact hexDigit_props ha
          · exact hexDigit_props hb
          · exact hexDigit_props hc
        · exact absurd h3 (by simp)
      · unfold isHex6 at h6
        split at h6
        · next heq =>
          simp only [Bool.and_eq_true] at h6
          obtain ⟨⟨⟨⟨⟨ha, hb⟩, hc⟩, hd⟩, he⟩, hf⟩ := h6
          refine ⟨by simp, ?_⟩
          intro c hcmem
          simp only [List.mem_cons, List.not_mem_nil, or_false] at hcmem
          rcases hcmem with rfl | rfl | rfl | rfl | rfl | rfl | rfl
          · exact ⟨by decide, by decide, by decide⟩
          · exact hexDigit_props ha
          · exact hexDigit_props hb
          · exact hexDigit_props hc
          · exact hexDigit_props hd
          · exact hexDigit_props he
          · exact hexDigit_props hf
        · exact absurd h6 (by simp)
      · refine ⟨hne, fun c hc => ?_⟩
        have := alpha_props (List.all_eq_true.mp hall c hc)
        exact ⟨this.1, this.2.1, this.2.2.1⟩
    obtain ⟨hne, hchars⟩ := hgood
    obtain ⟨htrim, hurl, hforb⟩ := isSafe_of_good_chars hne hchars
    unfold isSafeColorValue
    rw [htrim]
    rw [if_neg (by simp [hne]), if_neg (by simp [hurl]), if_neg (by simp [hforb])]
    rcases hv with h3 | h6 | ⟨-, hall, hcontains⟩
    · rw [if_pos h3]
    · by_cases h3 : isHex3 v = true
      · rw [if_pos h3]
      · rw [if_neg (by simpa using h3), if_pos h6]
    · have h3 : isHex3 v = false := by
        by_contra hh
        have := isHex3_hash (Bool.of_not_eq_false hh)
        have := alpha_props (List.all_eq_true.mp hall '#' this)
        exact this.2.2.2 rfl
      have h6 : isHex6 v = false := by
        by_contra hh
        have := isHex6_hash (Bool.of_not_eq_false hh)
        have := alpha_props (List.all_eq_true.mp hall '#' this)
        exact this.2.2.2 rfl
      rw [if_neg (by simp [h3]), if_neg (by simp [h6]), if_pos hall]
      exact hcontains
  · intro v c hmem hlist
    have hcw : jsWs c = false ∧ forbiddenColorChar c = true := by
      simp only [List.mem_cons, List.not_mem_nil, or_false] at hlist
      rcases hlist with rfl | rfl | rfl | rfl | rfl <;> exact ⟨by decide, by decide⟩
    have hct : c ∈ jsTrim v := mem_jsTrim hmem hcw.1
    have hne : (jsTrim v).isEmpty = false := by
      simp [List.isEmpty_iff, List.ne_nil_of_mem hct]
    have hany : (jsTrim v).any forbiddenColorChar = true :=
      List.any_eq_true.mpr ⟨c, hct, hcw.2⟩
    unfold isSafeColorValue
    rw [if_neg (by simp [hne])]
    by_cases hurl : urlTest (jsTrim v) = true
    · rw [if_pos hurl]
    · rw [if_neg (by simpa using hurl), if_pos hany]

/-- Claim C1 witness: the safety check at concrete inputs, via
`c1_color_safety`. -/
theorem c1_color_safety_witness :
    isSafeColorValue ("#abc".data) = true ∧
    isSafeColorValue ("Red".data) = true ∧
    isSafeColorValue ("url(javascript)".data) = false :=
  ⟨c1_color_safety.1 _ (Or.inl (by decide)),
   c1_color_safety.1 _ (Or.inr (Or.inr (by refine ⟨by decide, by decide, by decide⟩))),
   c1_color_safety.2 _ '(' (by decide) (by decide)⟩

/-! ## Claim C2: rich-mode detection -/

/-- Claim C2 counterexample: a document whose raw text contains the
box-drawing glyph `│` only inside a style-marker value.  The glyph occurs
in the full document text passed to the call, yet rich mode is detected on
the marker-stripped text and comes out `false`. -/
theorem c2_counterexample :
    detectRichMode ("\x7b#x:│\x7d".data) = true ∧
    richModeOfCall ("\x7b#x:│\x7d".data) = false := by
  constructor
  · decide
  · decide

/-- Claim C2 (amended): rich mode for a top-level `render` or `autoFormat`
call is `true` iff one of the box-drawing glyphs occurs in the
marker-stripped document text (zero-width characters removed, per-line
carriage returns trimmed, markers stripped, clean lines re-joined), not
necessarily in the raw document text. -/
theorem c2_rich_mode_amended (s : List Char) :
    richModeOfCall s = true ↔ ∃ c ∈ cleanDocOf s, c ∈ boxGlyphs := by
  unfold richModeOfCall detectRichMode
  rw [List.any_eq_true]
  constructor
  · rintro ⟨c, hc, hmem⟩
    exact ⟨c, hc, List.elem_iff.mp hmem⟩
  · rintro ⟨c, hc, hmem⟩
    exact ⟨c, hc, List.elem_iff.mpr hmem⟩

/-- Claim C2 witness: a document consisting of one box-drawing glyph is
detected as rich, via `c2_rich_mode_amended`. -/
theorem c2_rich_mode_witness : richModeOfCall ("─".data) = true :=
  (c2_rich_mode_amended _).mpr ⟨'─', by decide, by decide⟩

/-! ## Claim C4: idempotence of marker stripping -/

/-- Claim C4 counterexample: marker parsing is not idempotent.  On the
line `{#a{#b:c}:d}` the scanner strips the inner marker `{#b:c}`, and the
remaining text `{#a:d}` is itself a marker match, so re-parsing the clean
line still reports `hadMarkers = true`. -/
theorem c4_counterexample :
    (parseLineMarkers (parseLineMarkers ("\x7b#a\x7b#b:c\x7d:d\x7d".data)).clean).had = true := by
  decide

/-- Claim C4 (amended): marker parsing is idempotent on every line with at
most one opening brace: re-parsing the clean line produced by
`parseLineMarkers` yields `hadMarkers = false`. -/
theorem c4_idempotent_amended (cs : List Char) (h : cs.count '{' ≤ 1) :
    (parseLineMarkers (parseLineMarkers cs).clean).had = false := by
  by_cases hh : (parseLineMarkers cs).had = true
  · have hcount := @scanMarkers_count cs.length cs 0 le_rfl
    unfold parseLineMarkers at hh
    rw [hh, if_pos rfl] at hcount
    have hzero : (scanMarkers cs.length cs 0).clean.count '{' = 0 := by omega
    have hnb : '{' ∉ (scanMarkers cs.length cs 0).clean := List.count_eq_zero.mp hzero
    unfold parseLineMarkers
    rw [scanMarkers_no_brace hnb le_rfl]
  · simp only [Bool.not_eq_true] at hh
    have hclean : (parseLineMarkers cs).clean = cs :=
      scanMarkers_had_false le_rfl hh
    rw [hclean]
    exact hh

/-- Claim C4 witness: a line with a single marker re-parses clean, via
`c4_idempotent_amended`. -/
theorem c4_idempotent_witness :
    (parseLineMarkers (parseLineMarkers ("\x7b#color:red\x7dHi".data)).clean).had = false :=
  c4_idempotent_amended _ (by decide)

/-! ## Infrastructure for the inject/parse round trip (claim C5) -/

theorem dropWhile_head_not {p : Char → Bool} {a : Char} :
    ∀ {l t : List Char}, l.dropWhile p = a :: t → p a = false := by
  intro l
  induction l with
  | nil => intro t h; simp [List.dropWhile] at h
  | cons c r ih =>
    intro t h
    by_cases hc : p c = true
    · rw [List.dropWhile_cons_of_pos hc] at h
      exact ih h
    · rw [List.dropWhile_cons_of_neg hc] at h
      obtain ⟨rfl, -⟩ := by simpa using h
      simpa using hc

theorem dropWhile_eq_self_of_head {p : Char → Bool} {l : List Char}
    (h : ∀ a, l.head? = some a → p a = false) : l.dropWhile p = l := by
  cases l with
  | nil => rfl
  | cons c t => exact List.dropWhile_cons_of_neg (by simp [h c rfl])

theorem jsTrim_idem (l : List Char) : jsTrim (jsTrim l) = jsTrim l := by
  unfold jsTrim
  have h2 : List.dropWhile jsWs
      (((l.dropWhile jsWs).reverse.dropWhile jsWs).reverse).reverse =
      ((l.dropWhile jsWs).reverse.dropWhile jsWs) := by
    rw [List.reverse_reverse, List.dropWhile_idempotent]
  have h1 : List.dropWhile jsWs ((l.dropWhile jsWs).reverse.dropWhile jsWs).reverse =
      ((l.dropWhile jsWs).reverse.dropWhile jsWs).reverse := by
    apply dropWhile_eq_self_of_head
    intro a ha
    cases hA : l.dropWhile jsWs with
    | nil => rw [hA] at ha; simp at ha
    | cons x t =>
      have hx : jsWs x = false := dropWhile_head_not hA
      have hC := List.dropWhile_suffix (l := (l.dropWhile jsWs).reverse) jsWs
      rw [hA] at ha hC
      set C := ((x :: t).reverse.dropWhile jsWs) with hCdef
      rcases List.eq_nil_or_concat C with hnil | ⟨D, b, hDb⟩
      · rw [hnil] at ha; simp at ha
      · rw [List.concat_eq_append] at hDb
        rw [hDb] at ha hC
        obtain ⟨pre, hpre⟩ := hC
        have hrev : (x :: t).reverse = t.reverse ++ [x] := by simp
        rw [hrev] at hpre
        have hb : b = x := by
          have hlast := congrArg List.getLast? hpre
          rw [show pre ++ (D ++ [b]) = (pre ++ D) ++ [b] from by simp,
              List.getLast?_concat, List.getLast?_concat] at hlast
          exact Option.some.inj hlast
        rw [List.reverse_append] at ha
        obtain rfl : b = a := by simpa using ha
        rw [hb]
        exact hx
  rw [h1, h2]

theorem forbidden_no_brace {c : Char} (h : forbiddenColorChar c = false) :
    c ≠ '{' ∧ c ≠ '}' := by
  constructor
  · intro hc; subst hc; revert h; decide
  · intro hc; subst hc; revert h; decide

/-- Character shape of a value accepted by `isSafeColorValue`, for values
that are already trimmed: nonempty, with no braces and no whitespace. -/
theorem safe_value_shape {v : List Char} (hs : isSafeColorValue v = true)
    (ht : jsTrim v = v) :
    v ≠ [] ∧ ∀ c ∈ v, c ≠ '{' ∧ c ≠ '}' ∧ jsWs c = false := by
  unfold isSafeColorValue at hs
  rw [ht] at hs
  by_cases hne : v.isEmpty
  · rw [if_pos hne] at hs; exact absurd hs (by simp)
  rw [if_neg hne] at hs
  by_cases hurl : urlTest v = true
  · rw [if_pos hurl] at hs; exact absurd hs (by simp)
  rw [if_neg hurl] at hs
  by_cases hforb : v.any forbiddenColorChar = true
  · rw [if_pos hforb] at hs; exact absurd hs (by simp)
  rw [if_neg hforb] at hs
  have hforb2 : ∀ c ∈ v, forbiddenColorChar c = false :=
    fun c hc => by
      have := List.any_eq_false.mp (by simpa using hforb) c hc
      simpa using this
  refine ⟨by simpa [List.isEmpty_iff] using hne, ?_⟩
  by_cases h3 : isHex3 v = true
  · intro c hc
    obtain ⟨hb1, hb2⟩ := forbidden_no_brace (hforb2 c hc)
    refine ⟨hb1, hb2, ?_⟩
    unfold isHex3 at h3
    split at h3
    · simp only [Bool.and_eq_true] at h3
      obtain ⟨⟨ha, hbb⟩, hcc⟩ := h3
      simp only [List.mem_cons, List.not_mem_nil, or_false] at hc
      rcases hc with rfl | rfl | rfl | rfl
      · decide
      · exact (hexDigit_props ha).1
      · exact (hexDigit_props hbb).1
      · exact (hexDigit_props hcc).1
    · exact absurd h3 (by simp)
  rw [if_neg h3] at hs
  by_cases h6 : isHex6 v = true
  · intro c hc
    obtain ⟨hb1, hb2⟩ := forbidden_no_brace (hforb2 c hc)
    refine ⟨hb1, hb2, ?_⟩
    unfold isHex6 at h6
    split at h6
    · simp only [Bool.and_eq_true] at h6
      obtain ⟨⟨⟨⟨⟨ha, hbb⟩, hcc⟩, hdd⟩, hee⟩, hff⟩ := h6
      simp only [List.mem_cons, List.not_mem_nil, or_false] at hc
      rcases hc with rfl | rfl | rfl | rfl | rfl | rfl | rfl
      · decide
      · exact (hexDigit_props ha).1
      · exact (hexDigit_props hbb).1
      · exact (hexDigit_props hcc).1
      · exact (hexDigit_props hdd).1
      · exact (hexDigit_props hee).1
      · exact (hexDigit_props hff).1
    · exact absurd h6 (by simp)
  rw [if_neg h6] at hs
  by_cases hall : v.all asciiAlpha = true
  · intro c hc
    obtain ⟨hb1, hb2⟩ := forbidden_no_brace (hforb2 c hc)
    exact ⟨hb1, hb2, (alpha_props (List.all_eq_true.mp hall c hc)).1⟩
  · rw [if_neg hall] at hs
    exact absurd hs (by simp)

theorem tryMatch_value {cs k v rest : List Char}
    (h : tryMatch cs = some (k, v, rest)) : ∃ region, v = jsTrim region := by
  match cs with
  | [] => exact absurd h (by simp [tryMatch])
  | c :: t =>
    rw [tryMatch] at h
    split at h
    · exact absurd h (by simp)
    split at h
    · exact absurd h (by simp)
    split at h
    · exact absurd h (by simp)
    split at h
    · exact absurd h (by simp)
    split at h
    · exact absurd h (by simp)
    split at h
    · exact absurd h (by simp)
    split at h
    · exact absurd h (by simp)
    split at h
    · exact absurd h (by simp)
    obtain ⟨rfl, rfl, rfl⟩ := by simpa using h
    exact ⟨_, rfl⟩

/-- Nondecreasing marker indices, bounded below. -/
def markersChain : Nat → List Marker → Prop
  | _, [] => True
  | lo, m :: ms => lo ≤ m.index ∧ markersChain m.index ms

theorem markersChain_weaken {lo lo2 : Nat} {ms : List Marker}
    (h : markersChain lo2 ms) (hle : lo ≤ lo2) : markersChain lo ms := by
  cases ms with
  | nil => trivial
  | cons m rest => exact ⟨le_trans hle h.1, h.2⟩

theorem scanMarkers_chain {f : Nat} :
    ∀ {cs : List Char} {idx : Nat}, cs.length ≤ f →
      markersChain idx (scanMarkers f cs idx).markers ∧
      ∀ m ∈ (scanMarkers f cs idx).markers,
        m.index ≤ idx + (scanMarkers f cs idx).clean.length := by
  induction f with
  | zero =>
    intro cs idx hf
    rw [List.length_eq_zero.mp (Nat.le_zero.mp hf), scanMarkers_nil]
    exact ⟨trivial, by simp⟩
  | succ f0 ih =>
    intro cs idx hf
    cases cs with
    | nil => rw [scanMarkers_nil]; exact ⟨trivial, by simp⟩
    | cons c rest =>
      cases hm : tryMatch (c :: rest) with
      | some p =>
        obtain ⟨k, v, after⟩ := p
        obtain ⟨pre, heq, -, hlt⟩ := tryMatch_some hm
        have hfa : after.length ≤ f0 := by
          simp only [List.length_cons] at hf hlt ⊢; omega
        have hih := @ih after idx hfa
        rw [scanMarkers_cons_some hm]
        by_cases hv : (validKey (toLowerList k) && isSafeColorValue v) = true
        · rw [if_pos hv]
          refine ⟨⟨le_rfl, hih.1⟩, ?_⟩
          intro m hmem
          simp only [List.mem_cons] at hmem
          rcases hmem with rfl | hmem
          · simp
          · exact hih.2 m hmem
        · rw [if_neg hv]
          exact hih
      | none =>
        have hfr : rest.length ≤ f0 := by simp only [List.length_cons] at hf; omega
        have hih := @ih rest (idx + 1) hfr
        rw [scanMarkers_cons_none hm]
        refine ⟨markersChain_weaken hih.1 (by omega), ?_⟩
        intro m hmem
        have := hih.2 m hmem
        simp only [ParsedLine.clean, List.length_cons]
        omega

theorem scanMarkers_props {f : Nat} :
    ∀ {cs : List Char} {idx : Nat}, cs.length ≤ f →
      ∀ m ∈ (scanMarkers f cs idx).markers,
        validKey m.key = true ∧ isSafeColorValue m.value = true ∧
        jsTrim m.value = m.value := by
  induction f with
  | zero =>
    intro cs idx hf
    rw [List.length_eq_zero.mp (Nat.le_zero.mp hf), scanMarkers_nil]
    simp
  | succ f0 ih =>
    intro cs idx hf
    cases cs with
    | nil => rw [scanMarkers_nil]; simp
    | cons c rest =>
      cases hm : tryMatch (c :: rest) with
      | some p =>
        obtain ⟨k, v, after⟩ := p
        obtain ⟨pre, heq, -, hlt⟩ := tryMatch_some hm
        have hfa : after.length ≤ f0 := by
          simp only [List.length_cons] at hf hlt ⊢; omega
        rw [scanMarkers_cons_some hm]
        by_cases hv : (validKey (toLowerList k) && isSafeColorValue v) = true
        · rw [if_pos hv]
          intro m hmem
          simp only [List.mem_cons] at hmem
          rcases hmem with rfl | hmem
          · simp only [Bool.and_eq_true] at hv
            obtain ⟨region, hreg⟩ := tryMatch_value hm
            exact ⟨hv.1, hv.2, by rw [hreg, jsTrim_idem]⟩
          · exact ih hfa m hmem
        · rw [if_neg hv]
          exact ih hfa
      | none =>
        have hfr : rest.length ≤ f0 := by simp only [List.length_cons] at hf; omega
        rw [scanMarkers_cons_none hm]
        exact ih hfr

theorem takeWhile_append_stop {p : Char → Bool} {xs : List Char} {y : Char}
    (r : List Char) (hxs : ∀ x ∈ xs, p x = true) (hy : p y = false) :
    (xs ++ y :: r).takeWhile p = xs := by
  induction xs with
  | nil => simp [List.takeWhile_cons, hy]
  | cons a t ih =>
    rw [List.cons_append, List.takeWhile_cons_of_pos (hxs a (by simp)),
        ih (fun x hx => hxs x (by simp [hx]))]

theorem dropWhile_append_stop {p : Char → Bool} {xs : List Char} {y : Char}
    (r : List Char) (hxs : ∀ x ∈ xs, p x = true) (hy : p y = false) :
    (xs ++ y :: r).dropWhile p = y :: r := by
  induction xs with
  | nil => simp [List.dropWhile_cons, hy]
  | cons a t ih =>
    rw [List.cons_append, List.dropWhile_cons_of_pos (hxs a (by simp)),
        ih (fun x hx => hxs x (by simp [hx]))]

theorem splitAtClose_append {v : List Char} (s : List Char)
    (hv : '}' ∉ v) : splitAtClose (v ++ '}' :: s) = some (v, s) := by
  induction v with
  | nil => simp [splitAtClose]
  | cons a t ih =>
    rw [List.cons_append, splitAtClose,
        if_neg (fun ha => hv (by simp [ha])),
        ih (fun hm => hv (by simp [hm]))]

/-- A valid key is one of the three concrete lowercase strings. -/
theorem validKey_cases {k : List Char} (h : validKey k = true) :
    k = "bg".data ∨ k = "stroke".data ∨ k = "color".data := by
  simp only [validKey, Bool.or_eq_true, decide_eq_true_eq] at h
  rcases h with (h | h) | h
  · exact Or.inl h
  · exact Or.inr (Or.inl h)
  · exact Or.inr (Or.inr h)

theorem validKey_alpha {k : List Char} (h : validKey k = true) :
    (∀ c ∈ k, asciiAlpha c = true) ∧ k ≠ [] ∧ toLowerList k = k := by
  rcases validKey_cases h with rfl | rfl | rfl <;>
    exact ⟨by decide, by decide, by decide⟩

/-- Scanning a `{`-free segment consumes it verbatim, then continues. -/
theorem scanMarkers_pre {f : Nat} :
    ∀ {pre s : List Char} {idx : Nat}, '{' ∉ pre → (pre ++ s).length ≤ f →
      scanMarkers f (pre ++ s) idx =
        ⟨pre ++ (scanMarkers f s (idx + pre.length)).clean,
         (scanMarkers f s (idx + pre.length)).markers,
         (scanMarkers f s (idx + pre.length)).had⟩ := by
  induction f with
  | zero =>
    intro pre s idx _ hf
    have h0 : (pre ++ s).length = 0 := Nat.le_zero.mp hf
    simp only [List.length_append] at h0
    obtain ⟨hp, hs⟩ : pre = [] ∧ s = [] := by
      constructor <;> [exact List.length_eq_zero.mp (by omega);
        exact List.length_eq_zero.mp (by omega)]
    subst hp; subst hs
    rw [scanMarkers_nil]
    simp [scanMarkers_nil]
  | succ f0 ih =>
    intro pre s idx hb hf
    cases pre with
    | nil =>
      simp only [List.nil_append, List.length_nil, Nat.add_zero]
    | cons c pre2 =>
      have hc : c ≠ '{' := fun hcc => hb (by simp [hcc])
      rw [List.cons_append, scanMarkers_cons_none (tryMatch_none_of_ne _ hc)]
      have hf2 : (pre2 ++ s).length ≤ f0 := by
        simp only [List.cons_append, List.length_cons] at hf; omega
      rw [ih (fun hm => hb (by simp [hm])) hf2]
      have hfuel : scanMarkers f0 s (idx + 1 + pre2.length) =
          scanMarkers (f0 + 1) s (idx + 1 + pre2.length) := by
        apply scanMarkers_fuel
        · simp only [List.length_append] at hf2 ⊢; omega
        · simp only [List.cons_append, List.length_cons, List.length_append] at hf ⊢
          omega
      rw [hfuel]
      have harith : idx + 1 + pre2.length = idx + (c :: pre2).length := by
        simp only [List.length_cons]; omega
      rw [harith]
      simp

/-- Scanning a re-injected marker chunk records exactly that marker. -/
theorem scanMarkers_chunk {f : Nat} {m : Marker} {s : List Char} {idx : Nat}
    (hk : validKey m.key = true) (hs : isSafeColorValue m.value = true)
    (ht : jsTrim m.value = m.value)
    (hf : (markerChunk m ++ s).length ≤ f) :
    scanMarkers f (markerChunk m ++ s) idx =
      ⟨(scanMarkers f s idx).clean,
       ⟨m.key, m.value, idx⟩ :: (scanMarkers f s idx).markers, true⟩ := by
  obtain ⟨halpha, hkne, hlower⟩ := validKey_alpha hk
  obtain ⟨hvne, hvchars⟩ := safe_value_shape hs ht
  cases f with
  | zero =>
    exact absurd hf (by simp [markerChunk])
  | succ f0 =>
    have hchunk : markerChunk m ++ s =
        '{' :: '#' :: (m.key ++ ':' :: (m.value ++ '}' :: s)) := by
      simp [markerChunk]
    rw [hchunk]
    have htm : tryMatch ('{' :: '#' :: (m.key ++ ':' :: (m.value ++ '}' :: s))) =
        some (m.key, m.value, s) := by
      rw [tryMatch, if_neg (by simp)]
      rw [show List.dropWhile jsWs ('#' :: (m.key ++ ':' :: (m.value ++ '}' :: s))) =
            '#' :: (m.key ++ ':' :: (m.value ++ '}' :: s)) from
          List.dropWhile_cons_of_neg (by decide)]
      dsimp only
      rw [if_neg (by simp)]
      rw [takeWhile_append_stop (p := asciiAlpha) _ halpha (by decide)]
      rw [if_neg (by simp [List.isEmpty_iff, hkne])]
      rw [dropWhile_append_stop (p := asciiAlpha) _ halpha (by decide)]
      rw [show List.dropWhile jsWs (':' :: (m.value ++ '}' :: s)) =
            ':' :: (m.value ++ '}' :: s) from
          List.dropWhile_cons_of_neg (by decide)]
      dsimp only
      rw [if_neg (by simp)]
      rw [splitAtClose_append s (fun hmem => (hvchars '}' hmem).2.1 rfl)]
      dsimp only
      rw [if_neg (by simp [List.isEmpty_iff, hvne]), ht]
    rw [scanMarkers_cons_some htm]
    rw [hlower, if_pos (by simp [hk, hs])]
    have hfuel : scanMarkers f0 s idx = scanMarkers (f0 + 1) s idx := by
      apply scanMarkers_fuel
      · rw [hchunk] at hf
        simp only [List.length_cons, List.length_append] at hf ⊢; omega
      · rw [hchunk] at hf
        simp only [List.length_cons, List.length_append] at hf ⊢; omega
    rw [hfuel]

/-- Reference form of marker re-injection with absolute positions: the
clean text up to a marker's column, then its chunk, then the rest. -/
def injAbs (pos : Nat) (clean : List Char) : List Marker → List Char
  | [] => clean
  | m :: ms =>
    clean.take (m.index - pos) ++ markerChunk m ++
      injAbs m.index (clean.drop (m.index - pos)) ms

theorem markersChain_le {lo : Nat} :
    ∀ {ms : List Marker}, markersChain lo ms → ∀ m ∈ ms, lo ≤ m.index := by
  intro ms
  induction ms generalizing lo with
  | nil => intro _ m hm; simp at hm
  | cons x xs ih =>
    intro hchain m hm
    rcases List.mem_cons.mp hm with rfl | hmem
    · exact hchain.1
    · exact le_trans hchain.1 (ih hchain.2 m hmem)

theorem sortMarkers_of_chain {lo : Nat} :
    ∀ {ms : List Marker}, markersChain lo ms → sortMarkers ms = ms := by
  intro ms
  induction ms generalizing lo with
  | nil => intro _; rfl
  | cons m rest ih =>
    intro hchain
    rw [sortMarkers, ih hchain.2]
    cases rest with
    | nil => rfl
    | cons x xs =>
      rw [insertMarker, if_pos hchain.2.1]

theorem spliceAt_append {P gs : List (List Char)} {j : Nat} {ch : List Char} :
    spliceAt (P ++ gs) (P.length + j) ch = P ++ spliceAt gs j ch := by
  unfold spliceAt
  rw [List.take_append, List.drop_append]
  simp

/-- Shifting all marker indices up by one is the same as increasing the
running offset. -/
theorem injectFold_shift :
    ∀ (ms : List Marker) (gs : List (List Char)) (off : Nat),
      injectFold gs (ms.map (fun m => ⟨m.key, m.value, m.index + 1⟩)) off =
        injectFold gs ms (off + 1) := by
  intro ms
  induction ms with
  | nil => intro gs off; rfl
  | cons m rest ih =>
    intro gs off
    rw [List.map_cons, injectFold, injectFold]
    have harith : m.index + 1 + off = m.index + (off + 1) := by omega
    rw [harith]
    exact ih _ _

/-- Insertions that all land inside the suffix after a fixed block `P`
factor through that block. -/
theorem injectFold_after :
    ∀ (ms : List Marker) (P gs : List (List Char)) (off : Nat),
      (∀ m ∈ ms, P.length ≤ m.index + off) →
      injectFold (P ++ gs) ms off =
        P ++ injectFold gs
          (ms.map (fun m => ⟨m.key, m.value, m.index + off - P.length⟩)) 0 := by
  intro ms
  induction ms with
  | nil => intro P gs off _; rfl
  | cons m rest ih =>
    intro P gs off hms
    have hle : P.length ≤ m.index + off := hms m (by simp)
    rw [injectFold, List.map_cons, injectFold]
    have hsplit : min (P ++ gs).length (m.index + off) =
        P.length + min gs.length (m.index + off - P.length) := by
      simp only [List.length_append]; omega
    have hmin : min gs.length (m.index + off - P.length + 0) =
        min gs.length (m.index + off - P.length) := by omega
    rw [hsplit, spliceAt_append, hmin]
    rw [ih P _ (off + 1) (fun x hx => le_trans (hms x (by simp [hx])) (by omega))]
    have hmaps : rest.map (fun x => (⟨x.key, x.value, x.index + (off + 1) - P.length⟩ : Marker)) =
        (rest.map (fun x => (⟨x.key, x.value, x.index + off - P.length⟩ : Marker))).map
          (fun x => ⟨x.key, x.value, x.index + 1⟩) := by
      rw [List.map_map]
      apply List.map_congr_left
      intro x hx
      have := hms x (by simp [hx])
      simp only [Function.comp_apply, Marker.mk.injEq, true_and]
      omega
    rw [hmaps, injectFold_shift]
    rfl

theorem flatten_units (l : List Char) : (l.map (fun c => [c])).flatten = l := by
  induction l with
  | nil => rfl
  | cons c t ih => simp [ih]

/-- The splice fold agrees with the reference interleaving. -/
theorem injectFold_eq_injAbs :
    ∀ (ms : List Marker) (clean : List Char) (d : Nat),
      markersChain d ms → (∀ m ∈ ms, m.index ≤ d + clean.length) →
      (injectFold (clean.map (fun c => [c]))
        (ms.map (fun m => ⟨m.key, m.value, m.index - d⟩)) 0).flatten =
      injAbs d clean ms := by
  intro ms
  induction ms with
  | nil => intro clean d _ _; exact flatten_units clean
  | cons m rest ih =>
    intro clean d hchain hbound
    have hdm : d ≤ m.index := hchain.1
    have hmd : m.index - d ≤ clean.length := by
      have := hbound m (by simp)
      omega
    have hrest_lo : ∀ x ∈ rest, m.index ≤ x.index := markersChain_le hchain.2
    rw [List.map_cons, injectFold]
    rw [show (markerChunk ⟨m.key, m.value, m.index - d⟩ : List Char) = markerChunk m from rfl]
    have hmin : min (clean.map (fun c => [c])).length
        ((⟨m.key, m.value, m.index - d⟩ : Marker).index + 0) = m.index - d := by
      simp only [List.length_map]; omega
    rw [hmin]
    have hsplice : spliceAt (clean.map (fun c => [c])) (m.index - d) (markerChunk m) =
        ((clean.take (m.index - d)).map (fun c => [c]) ++ [markerChunk m]) ++
          (clean.drop (m.index - d)).map (fun c => [c]) := by
      unfold spliceAt
      rw [List.map_take, List.map_drop]
      simp
    rw [hsplice]
    have hPlen : ((clean.take (m.index - d)).map (fun c => [c]) ++ [markerChunk m]).length =
        (m.index - d) + 1 := by
      simp only [List.length_append, List.length_map, List.length_take, List.length_cons,
        List.length_nil]
      omega
    rw [injectFold_after _ _ _ _ (by
      intro x hx
      simp only [List.mem_map] at hx
      obtain ⟨x0, hx0, rfl⟩ := hx
      have h2 : m.index ≤ x0.index := hrest_lo x0 hx0
      simp only [hPlen]
      omega)]
    have hmaps : ((rest.map (fun x => (⟨x.key, x.value, x.index - d⟩ : Marker))).map
          (fun x => (⟨x.key, x.value, x.index + 1 -
            ((clean.take (m.index - d)).map (fun c => [c]) ++ [markerChunk m]).length⟩ : Marker))) =
        rest.map (fun x => (⟨x.key, x.value, x.index - m.index⟩ : Marker)) := by
      rw [List.map_map]
      apply List.map_congr_left
      intro x hx
      have h2 : m.index ≤ x.index := hrest_lo x hx
      simp only [Function.comp_apply, Marker.mk.injEq, hPlen, true_and]
      omega
    rw [hmaps]
    rw [List.flatten_append, List.flatten_append]
    have hih := ih (clean.drop (m.index - d)) m.index hchain.2 (by
      intro x hx
      have := hbound x (by simp [hx])
      simp only [List.length_drop]
      omega)
    rw [hih]
    rw [injAbs]
    simp only [List.flatten, flatten_units]
    simp [flatten_units]

/-- `injectMarkersIntoLine` agrees with the reference interleaving for
chain-sorted, in-range markers (which is what `parseLineMarkers`
produces). -/
theorem injectMarkersIntoLine_eq_injAbs {clean : List Char} {ms : List Marker}
    (hchain : markersChain 0 ms) (hbound : ∀ m ∈ ms, m.index ≤ clean.length) :
    injectMarkersIntoLine clean ms = injAbs 0 clean ms := by
  unfold injectMarkersIntoLine
  by_cases hms : ms.isEmpty
  · rw [if_pos hms]
    rw [List.isEmpty_iff.mp hms]
    rfl
  · rw [if_neg hms, sortMarkers_of_chain hchain]
    have hmaps : ms = ms.map (fun m => (⟨m.key, m.value, m.index - 0⟩ : Marker)) := by
      conv_lhs => rw [show ms = ms.map id from by simp]
      apply List.map_congr_left
      intro x _
      simp

    conv_lhs => rw [hmaps]
    exact injectFold_eq_injAbs ms clean 0 hchain (by simpa using hbound)

/-- Scanning the reference interleaving of a `{`-free clean line with
chain-sorted, in-range, valid, safe markers recovers exactly the clean
line and the markers. -/
theorem scanMarkers_injAbs {f : Nat} :
    ∀ {ms : List Marker} {clean : List Char} {pos : Nat},
      '{' ∉ clean → markersChain pos ms →
      (∀ m ∈ ms, m.index ≤ pos + clean.length ∧ validKey m.key = true ∧
        isSafeColorValue m.value = true ∧ jsTrim m.value = m.value) →
      (injAbs pos clean ms).length ≤ f →
      scanMarkers f (injAbs pos clean ms) pos = ⟨clean, ms, !ms.isEmpty⟩ := by
  intro ms
  induction ms with
  | nil =>
    intro clean pos hb _ _ hf
    rw [injAbs] at hf ⊢
    rw [scanMarkers_no_brace hb hf]
    rfl
  | cons m rest ih =>
    intro clean pos hb hchain hprops hf
    have hpm : pos ≤ m.index := hchain.1
    have hbound : m.index ≤ pos + clean.length := (hprops m (by simp)).1
    have htake_len : (clean.take (m.index - pos)).length = m.index - pos := by
      simp only [List.length_take]
      omega
    rw [injAbs] at hf ⊢
    rw [show clean.take (m.index - pos) ++ markerChunk m ++
          injAbs m.index (clean.drop (m.index - pos)) rest =
        clean.take (m.index - pos) ++ (markerChunk m ++
          injAbs m.index (clean.drop (m.index - pos)) rest) from by simp]
    have hfa : (clean.take (m.index - pos) ++ (markerChunk m ++
        injAbs m.index (clean.drop (m.index - pos)) rest)).length ≤ f := by
      simpa using hf
    rw [scanMarkers_pre (fun hm => hb ((List.take_subset _ _) hm)) hfa]
    rw [htake_len]
    have harith : pos + (m.index - pos) = m.index := by omega
    rw [harith]
    have hchunkf : (markerChunk m ++
        injAbs m.index (clean.drop (m.index - pos)) rest).length ≤ f := by
      simp only [List.length_append] at hfa ⊢
      omega
    rw [scanMarkers_chunk (hprops m (by simp)).2.1 (hprops m (by simp)).2.2.1
        (hprops m (by simp)).2.2.2 hchunkf]
    have hrec := @ih (clean.drop (m.index - pos)) m.index
      (fun hm => hb ((List.drop_subset _ _) hm)) hchain.2
      (by
        intro x hx
        obtain ⟨hx1, hx2, hx3, hx4⟩ := hprops x (by simp [hx])
        refine ⟨?_, hx2, hx3, hx4⟩
        simp only [List.length_drop]
        omega)
      (by
        simp only [List.length_append] at hchunkf ⊢
        omega)
    rw [hrec]
    have hm_eta : (⟨m.key, m.value, m.index⟩ : Marker) = m := rfl
    simp only [ParsedLine.clean, ParsedLine.markers, ParsedLine.had, hm_eta]
    rw [List.take_append_drop]
    rfl

/-! ## Claim C5: marker injection as a stable inverse of parsing -/

/-- Claim C5 counterexample: parse/inject/parse is not stable for every
line.  On `{#a{#b:c}:d}` parsing strips both marker-shaped substrings and
accepts no marker, so re-injection returns the clean line `{#a:d}`
unchanged, and re-parsing that clean line strips it down to the empty
line: the clean lines of the two parses differ. -/
theorem c5_counterexample :
    (parseLineMarkers (injectMarkersIntoLine
        (parseLineMarkers ("\x7b#a\x7b#b:c\x7d:d\x7d".data)).clean
        (parseLineMarkers ("\x7b#a\x7b#b:c\x7d:d\x7d".data)).markers)).clean ≠
      (parseLineMarkers ("\x7b#a\x7b#b:c\x7d:d\x7d".data)).clean := by
  decide

/-- Claim C5 (amended): for every line whose clean text contains no
opening brace, parsing the result of re-injecting the parsed markers into
the parsed clean line yields the same clean line and exactly the same
marker list (same kinds, values, and visible column indices) as parsing
the line directly. -/
theorem c5_roundtrip_amended (cs : List Char)
    (h : '{' ∉ (parseLineMarkers cs).clean) :
    (parseLineMarkers (injectMarkersIntoLine (parseLineMarkers cs).clean
        (parseLineMarkers cs).markers)).clean = (parseLineMarkers cs).clean ∧
    (parseLineMarkers (injectMarkersIntoLine (parseLineMarkers cs).clean
        (parseLineMarkers cs).markers)).markers = (parseLineMarkers cs).markers := by
  have hchain := (@scanMarkers_chain cs.length cs 0 le_rfl).1
  have hbound := (@scanMarkers_chain cs.length cs 0 le_rfl).2
  have hprops := @scanMarkers_props cs.length cs 0 le_rfl
  have hinj : injectMarkersIntoLine (parseLineMarkers cs).clean
      (parseLineMarkers cs).markers =
      injAbs 0 (parseLineMarkers cs).clean (parseLineMarkers cs).markers := by
    apply injectMarkersIntoLine_eq_injAbs hchain
    intro m hm
    simpa using hbound m hm
  rw [hinj]
  have hscan := @scanMarkers_injAbs
    ((injAbs 0 (parseLineMarkers cs).clean (parseLineMarkers cs).markers).length)
    ((parseLineMarkers cs).markers)
    ((parseLineMarkers cs).clean) 0
    h hchain
    (by
      intro m hm
      obtain ⟨h1, h2, h3⟩ := hprops m hm
      exact ⟨by simpa using hbound m hm, h1, h2, h3⟩)
    le_rfl
  unfold parseLineMarkers at hscan ⊢
  rw [hscan]
  exact ⟨rfl, rfl⟩

/-- Claim C5 witness: the round trip at a concrete marker line, via
`c5_roundtrip_amended`. -/
theorem c5_roundtrip_witness :
    (parseLineMarkers (injectMarkersIntoLine
        (parseLineMarkers ("\x7b#color:red\x7dHi".data)).clean
        (parseLineMarkers ("\x7b#color:red\x7dHi".data)).markers)).clean =
      (parseLineMarkers ("\x7b#color:red\x7dHi".data)).clean ∧
    (parseLineMarkers (injectMarkersIntoLine
        (parseLineMarkers ("\x7b#color:red\x7dHi".data)).clean
        (parseLineMarkers ("\x7b#color:red\x7dHi".data)).markers)).markers =
      (parseLineMarkers ("\x7b#color:red\x7dHi".data)).markers :=
  c5_roundtrip_amended _ (by decide)

/-! ## Claim C6: vertical connectivity of the classifier -/

/-- `SmoothScrub.connectsDown`: whether a character can connect downward
into the next row, per mode. -/
def connectsDown (rich : Bool) (c : Char) : Bool :=
  if rich then
    if c = '─' ∨ c = '═' then false
    else ("│║┌┐├┤┬┼╔╗╠╣╦╬╓╖╒╕╥╤╫".data).contains c
  else
    if c = '-' ∨ c = '=' ∨ c = '_' then false
    else c = '|' ∨ c = '+' ∨ c = 'v'

/-- `SmoothScrub.connectsUp`: whether a character can connect upward from
the previous row, per mode. -/
def connectsUp (rich : Bool) (c : Char) : Bool :=
  if rich then
    if c = '─' ∨ c = '═' then false
    else ("│║└┘├┤┴┼╚╝╠╣╩╬╙╜╘╛╨╧╫".data).contains c
  else
    if c = '-' ∨ c = '=' ∨ c = '_' then false
    else c = '|' ∨ c = '+' ∨ c = 'v'

/-- The box-drawing junction glyphs (three- and four-way junctions). -/
def junctionGlyphChars : List Char := ['├', '┤', '┬', '┴', '┼']

/-- Claim C6 counterexample: `┬` is a junction glyph, yet in rich mode it
does not satisfy `connectsUp` (and symmetrically `┴` does not satisfy
`connectsDown`), so junction glyphs do not all satisfy both predicates. -/
theorem c6_counterexample :
    '┬' ∈ junctionGlyphChars ∧ connectsUp true '┬' = false ∧
    '┴' ∈ junctionGlyphChars ∧ connectsDown true '┴' = false := by
  refine ⟨by decide, by decide, by decide, by decide⟩

/-- Claim C6 (amended): every horizontal-rule glyph `─ = - _` satisfies
neither `connectsDown` nor `connectsUp` in either mode; in rich mode the
vertical bars `│ ║` and the junctions `├ ┤ ┼` satisfy both, while the
T-junction `┬` connects only down and `┴` connects only up; in ASCII mode
`|`, `+` and `v` satisfy both. -/
theorem c6_connectivity_amended :
    (∀ c ∈ ['─', '=', '-', '_'], ∀ m : Bool,
       connectsDown m c = false ∧ connectsUp m c = false) ∧
    (∀ c ∈ ['│', '║', '├', '┤', '┼'],
       connectsDown true c = true ∧ connectsUp true c = true) ∧
    (∀ c ∈ ['|', '+', 'v'],
       connectsDown false c = true ∧ connectsUp false c = true) ∧
    (connectsDown true '┬' = true ∧ connectsUp true '┬' = false) ∧
    (connectsUp true '┴' = true ∧ connectsDown true '┴' = false) := by
  refine ⟨?_, ?_, ?_, by decide, by decide⟩
  · intro c hc m
    rcases List.mem_cons.mp hc with rfl | hc
    · cases m <;> exact ⟨by decide, by decide⟩
    rcases List.mem_cons.mp hc with rfl | hc
    · cases m <;> exact ⟨by decide, by decide⟩
    rcases List.mem_cons.mp hc with rfl | hc
    · cases m <;> exact ⟨by decide, by decide⟩
    rcases List.mem_cons.mp hc with rfl | hc
    · cases m <;> exact ⟨by decide, by decide⟩
    · simp at hc
  · intro c hc
    fin_cases hc <;> exact ⟨by decide, by decide⟩
  · intro c hc
    fin_cases hc <;> exact ⟨by decide, by decide⟩

/-- Claim C6 witness: the predicates at concrete glyphs, via
`c6_connectivity_amended`. -/
theorem c6_connectivity_witness :
    (connectsDown true '─' = false ∧ connectsUp true '─' = false) ∧
    (connectsDown true '│' = true ∧ connectsUp true '│' = true) ∧
    (connectsDown false 'v' = true ∧ connectsUp false 'v' = true) :=
  ⟨c6_connectivity_amended.1 '─' (by decide) true,
   c6_connectivity_amended.2.1 '│' (by decide),
   c6_connectivity_amended.2.2.1 'v' (by decide)⟩

/-! ## The grid cell model and text zones (claim C7) -/

/-- One grid cell as built by `render`: grapheme, pixel box, center, and
the stroked-box ownership flag.  With the default configuration all
coordinates are integers. -/
structure Cell where
  char : Char
  x : Int
  y : Int
  cx : Int
  cy : Int
  w : Int
  cols : Int
  stroked : Bool
  deriving DecidableEq, Repr

/-- `SmoothScrub.isVert`: vertical wall-like characters per mode. -/
def isVert (rich : Bool) (c : Char) : Bool :=
  if rich then c = '│' ∨ c = '║'
  else c = '│' ∨ c = '║' ∨ c = '|'

/-- `SmoothScrub.isCorner`: the `CORNER_CHARS` class. -/
def isCorner (c : Char) : Bool :=
  ("┌┐└┘├┤┬┴┼".data).contains c

/-- JS `row[i]?.char` with a possibly negative index. -/
def rowChar? (row : List Cell) (i : Int) : Option Char :=
  if i < 0 then none else (row.get? i.toNat).map (fun cell => cell.char)

/-- JS `grid[r]?.[i]?.char` with possibly negative indices. -/
def gridChar? (grid : List (List Cell)) (r : Int) (i : Int) : Option Char :=
  if r < 0 then none
  else
    match grid.get? r.toNat with
    | none => none
    | some row => rowChar? row i

/-- The wall test of `render`'s text-zone pass: vertical wall or corner
glyphs, plus (ASCII mode) a `+` adjacent to a box edge. -/
def isWallCell (rich : Bool) (grid : List (List Cell)) (rowIndex : Nat)
    (row : List Cell) (i : Nat) (cell : Cell) : Bool :=
  let base := isVert rich cell.char || isCorner cell.char
  if !rich && decide (cell.char = '+') && !base then
    let leftChar := rowChar? row ((i : Int) - 1)
    let rightChar := rowChar? row ((i : Int) + 1)
    let upChar := gridChar? grid ((rowIndex : Int) - 1) (i : Int)
    let downChar := gridChar? grid ((rowIndex : Int) + 1) (i : Int)
    decide (leftChar = some '-') || decide (leftChar = some '+') ||
    decide (rightChar = some '-') || decide (rightChar = some '+') ||
    decide (upChar = some '|') || decide (upChar = some '+') ||
    decide (downChar = some '|') || decide (downChar = some '+')
  else base

/-- The wall list collected for one row: cell index and cell x. -/
def wallsOfRow (rich : Bool) (grid : List (List Cell)) (rowIndex : Nat) :
    List (Nat × Int) :=
  ((grid.getD rowIndex []).enum.filter
    (fun p => isWallCell rich grid rowIndex (grid.getD rowIndex []) p.1 p.2)).map
    (fun p => (p.1, p.2.x))

/-- A text zone: inclusive cell start, exclusive cell end (`stop` stands
for the source's `end`, a Lean keyword), and pixel bounds. -/
structure ZoneS where
  start : Nat
  stop : Nat
  leftX : Int
  rightX : Int
  deriving DecidableEq, Repr

/-- Placeholder cell for out-of-range lookups (never hit on the walls a
row actually produced). -/
def defaultCell : Cell := ⟨' ', 0, 0, 0, 0, 0, 0, false⟩

/-- The zone list built by `render` for one row: fewer than two walls
give one full-row zone at the canvas margins, otherwise one zone per
adjacent wall pair. -/
def zonesOfRow (cw width : Int) (row : List Cell) (walls : List (Nat × Int)) :
    List ZoneS :=
  if walls.length < 2 then [⟨0, row.length, cw, width - cw⟩]
  else
    (List.range (walls.length - 1)).map (fun k =>
      let w1 := walls.getD k (0, 0)
      let w2 := walls.getD (k + 1) (0, 0)
      let c1 := row.getD w1.1 defaultCell
      let c2 := row.getD w2.1 defaultCell
      ⟨w1.1 + 1, w2.1, c1.x + c1.w, c2.x⟩)

/-- Claim C7: with fewer than two walls the whole row is one zone from
cell 0 to the row length with pixel bounds at the canvas margins;
otherwise each adjacent wall pair yields exactly one zone with inclusive
start `wallA.i + 1` and exclusive end `wallB.i`. -/
theorem c7_zones (rich : Bool) (grid : List (List Cell)) (rowIndex : Nat)
    (cw width : Int) :
    ((wallsOfRow rich grid rowIndex).length < 2 →
       zonesOfRow cw width (grid.getD rowIndex []) (wallsOfRow rich grid rowIndex) =
         [⟨0, (grid.getD rowIndex []).length, cw, width - cw⟩]) ∧
    (2 ≤ (wallsOfRow rich grid rowIndex).length →
       (zonesOfRow cw width (grid.getD rowIndex []) (wallsOfRow rich grid rowIndex)).length =
           (wallsOfRow rich grid rowIndex).length - 1 ∧
       ∀ k, k + 1 < (wallsOfRow rich grid rowIndex).length →
         ∃ z, (zonesOfRow cw width (grid.getD rowIndex [])
               (wallsOfRow rich grid rowIndex)).get? k = some z ∧
           z.start = ((wallsOfRow rich grid rowIndex).getD k (0, 0)).1 + 1 ∧
           z.stop = ((wallsOfRow rich grid rowIndex).getD (k + 1) (0, 0)).1) := by
  constructor
  · intro hlt
    unfold zonesOfRow
    rw [if_pos hlt]
  · intro hge
    have hnlt : ¬ (wallsOfRow rich grid rowIndex).length < 2 := by omega
    unfold zonesOfRow
    rw [if_neg hnlt]
    constructor
    · simp
    · intro k hk
      have hkr : k < (wallsOfRow rich grid rowIndex).length - 1 := by omega
      rw [List.get?_eq_getElem?, List.getElem?_map, List.getElem?_range hkr]
      simp only [Option.map_some']
      exact ⟨_, rfl, rfl, rfl⟩

/-- A one-row grid `|a|` used to witness claim C7. -/
def c7grid : List (List Cell) :=
  [[⟨'|', 12, 24, 18, 36, 12, 1, false⟩,
    ⟨'a', 24, 24, 30, 36, 12, 1, false⟩,
    ⟨'|', 36, 24, 42, 36, 12, 1, false⟩]]

/-- Claim C7 witness: on the row `|a|` the two walls produce exactly one
zone spanning cells 1 to 2, via `c7_zones`. -/
theorem c7_zones_witness :
    ∃ z, (zonesOfRow 12 60 (c7grid.getD 0 []) (wallsOfRow false c7grid 0)).get? 0 =
        some z ∧ z.start = 1 ∧ z.stop = 2 := by
  obtain ⟨hlen, hk⟩ := (c7_zones false c7grid 0 12 60).2 (by decide)
  obtain ⟨z, hz, hs, he⟩ := hk 0 (by decide)
  refine ⟨z, hz, ?_, ?_⟩
  · rw [hs]; decide
  · rw [he]; decide

/-! ## Claim C8: innermost-box resolution -/

/-- A perimeter-validated rectangle as produced by
`detectRectangularBoxes`, with its stored area. -/
structure DetectedBox where
  top : Nat
  right : Nat
  bottom : Nat
  left : Nat
  area : Nat
  deriving DecidableEq, Repr

/-- Strict enclosure test used by `findSmallestEnclosingBox`. -/
def enclosesBox (b : DetectedBox) (row col : Nat) : Bool :=
  decide (b.top < row) && decide (row < b.bottom) &&
  decide (b.left < col) && decide (col < b.right)

/-- Stable insertion by area (JS `Array.sort` with comparator
`a.area - b.area` is stable). -/
def insertByArea (b : DetectedBox) : List DetectedBox → List DetectedBox
  | [] => [b]
  | x :: xs => if b.area ≤ x.area then b :: x :: xs else x :: insertByArea b xs

/-- Stable sort of boxes by ascending area. -/
def sortByArea : List DetectedBox → List DetectedBox
  | [] => []
  | b :: bs => insertByArea b (sortByArea bs)

/-- `SmoothScrub.findSmallestEnclosingBox`: filter the strictly enclosing
boxes, sort by area, take the first. -/
def findSmallestEnclosingBox (boxes : List DetectedBox) (row col : Nat) :
    Option DetectedBox :=
  (sortByArea (boxes.filter (fun b => enclosesBox b row col))).head?

theorem mem_insertByArea {b x : DetectedBox} :
    ∀ {l : List DetectedBox}, x ∈ insertByArea b l ↔ x = b ∨ x ∈ l := by
  intro l
  induction l with
  | nil => simp [insertByArea]
  | cons y ys ih =>
    rw [insertByArea]
    by_cases hb : b.area ≤ y.area
    · rw [if_pos hb]
      simp
    · rw [if_neg hb]
      simp only [List.mem_cons, ih]
      tauto

theorem sortByArea_nil_iff {l : List DetectedBox} : sortByArea l = [] ↔ l = [] := by
  cases l with
  | nil => simp [sortByArea]
  | cons b bs =>
    simp only [sortByArea]
    constructor
    · intro h
      cases hs : sortByArea bs with
      | nil => rw [hs] at h; simp [insertByArea] at h
      | cons y ys =>
        rw [hs, insertByArea] at h
        by_cases hb : b.area ≤ y.area
        · rw [if_pos hb] at h; simp at h
        · rw [if_neg hb] at h; simp at h
    · intro h; simp at h

theorem mem_sortByArea {x : DetectedBox} :
    ∀ {l : List DetectedBox}, x ∈ sortByArea l ↔ x ∈ l := by
  intro l
  induction l with
  | nil => simp [sortByArea]
  | cons b bs ih =>
    rw [sortByArea, mem_insertByArea]
    simp [ih]

theorem sortByArea_head_min :
    ∀ {l : List DetectedBox} {b : DetectedBox} {t : List DetectedBox},
      sortByArea l = b :: t → ∀ x ∈ l, b.area ≤ x.area := by
  intro l
  induction l with
  | nil => intro b t h; simp [sortByArea] at h
  | cons y ys ih =>
    intro b t h x hx
    rw [sortByArea] at h
    cases hs : sortByArea ys with
    | nil =>
      rw [hs] at h
      obtain ⟨rfl, -⟩ : y = b ∧ [] = t := by simpa [insertByArea] using h
      rcases List.mem_cons.mp hx with rfl | hmem
      · exact le_rfl
      · rw [sortByArea_nil_iff.mp hs] at hmem
        simp at hmem
    | cons z zs =>
      rw [hs, insertByArea] at h
      by_cases hb : y.area ≤ z.area
      · rw [if_pos hb] at h
        obtain ⟨rfl, -⟩ : y = b ∧ z :: zs = t := by simpa using h
        rcases List.mem_cons.mp hx with rfl | hmem
        · exact le_rfl
        · exact le_trans hb (ih hs x hmem)
      · rw [if_neg hb] at h
        obtain ⟨rfl, -⟩ : z = b ∧ insertByArea y zs = t := by simpa using h
        rcases List.mem_cons.mp hx with rfl | hmem
        · omega
        · exact ih hs x hmem

/-- Claim C8: a `bg`/`stroke` marker's style goes to a detected box of
minimal area among all boxes strictly enclosing the marker's position
(row strictly between top and bottom, column strictly between left and
right); if no detected box strictly encloses the position, no box is
selected and no box style is produced. -/
theorem c8_innermost_box (boxes : List DetectedBox) (row col : Nat) :
    (∀ b, findSmallestEnclosingBox boxes row col = some b →
       b ∈ boxes ∧ enclosesBox b row col = true ∧
       ∀ b2 ∈ boxes, enclosesBox b2 row col = true → b.area ≤ b2.area) ∧
    (findSmallestEnclosingBox boxes row col = none ↔
       ∀ b ∈ boxes, enclosesBox b row col = false) := by
  constructor
  · intro b hb
    unfold findSmallestEnclosingBox at hb
    cases hs : sortByArea (boxes.filter (fun b => enclosesBox b row col)) with
    | nil => rw [hs] at hb; exact absurd hb (by simp)
    | cons y ys =>
      rw [hs] at hb
      have hyb : y = b := by simpa using hb
      subst hyb
      have hmem : y ∈ boxes.filter (fun bb => enclosesBox bb row col) := by
        rw [← mem_sortByArea, hs]
        simp
      have hmem2 := List.mem_filter.mp hmem
      refine ⟨hmem2.1, by simpa using hmem2.2, ?_⟩
      intro b2 hb2 henc
      exact sortByArea_head_min hs b2 (List.mem_filter.mpr ⟨hb2, by simpa using henc⟩)
  · unfold findSmallestEnclosingBox
    rw [List.head?_eq_none_iff, sortByArea_nil_iff, List.filter_eq_nil_iff]
    constructor
    · intro h b hb
      simpa using h b hb
    · intro h b hb
      simp [h b hb]

/-- Nested boxes used to witness claim C8. -/
def c8boxes : List DetectedBox :=
  [⟨0, 10, 10, 0, 100⟩, ⟨1, 5, 5, 1, 16⟩]

/-- Claim C8 witness: at position (2, 2) inside both nested boxes the
inner box of area 16 is selected, via `c8_innermost_box`. -/
theorem c8_innermost_box_witness :
    (⟨1, 5, 5, 1, 16⟩ : DetectedBox) ∈ c8boxes ∧
    enclosesBox ⟨1, 5, 5, 1, 16⟩ 2 2 = true ∧
    ∀ b2 ∈ c8boxes, enclosesBox b2 2 2 = true → 16 ≤ b2.area := by
  have h := (c8_innermost_box c8boxes 2 2).1 ⟨1, 5, 5, 1, 16⟩ (by decide)
  exact ⟨h.1, h.2.1, fun b2 hb2 he => h.2.2 b2 hb2 he⟩

/-! ## Width model and structural classifier -/

/-- `SmoothScrub.getGraphemeWidth`: the non-rich width heuristic. -/
def getGraphemeWidth (c : Char) : Nat :=
  if c.toNat < 127 then 1
  else if (decide (0x1F300 ≤ c.toNat) && decide (c.toNat ≤ 0x1F9FF)) ||
          (decide (0x2600 ≤ c.toNat) && decide (c.toNat ≤ 0x27BF)) ||
          (decide (0x4E00 ≤ c.toNat) && decide (c.toNat ≤ 0x9FFF)) then 2
  else 1

/-- `SmoothScrub.getRichModeWidth`: the rich-mode width heuristic. -/
def getRichModeWidth (c : Char) : Nat :=
  if (decide (0x1F300 ≤ c.toNat) && decide (c.toNat ≤ 0x1F9FF)) ||
     (decide (0x1FA00 ≤ c.toNat) && decide (c.toNat ≤ 0x1FAFF)) ||
     (decide (0x2600 ≤ c.toNat) && decide (c.toNat ≤ 0x27BF)) ||
     (decide (0x4E00 ≤ c.toNat) && decide (c.toNat ≤ 0x9FFF)) ||
     decide (c.toNat = 0xFE0F) then 2
  else 1

/-- `SmoothScrub.getDisplayWidth` per mode. -/
def getDisplayWidth (rich : Bool) (c : Char) : Nat :=
  if rich then getRichModeWidth c else getGraphemeWidth c

/-- `SmoothScrub.getTextDisplayWidth`: sum of the grapheme widths. -/
def getTextDisplayWidth (rich : Bool) (l : List Char) : Nat :=
  (l.map (getDisplayWidth rich)).sum

/-- `SmoothScrub.isStructure`: `RICH_STRUCTURE_CHARS` or
`ASCII_STRUCTURE_CHARS` per mode. -/
def isStructure (rich : Bool) (c : Char) : Bool :=
  if rich then ("─│┌┐└┘├┤┬┴┼║".data).contains c
  else ("─│┌┐└┘├┤┬┴┼║|_=/\\*+-v<>".data).contains c

/-! ## The auto-format normalizer -/

/-- JS `String.repeat`: throws a `RangeError` on a negative count, which
is the one throwing operation reachable from `autoFormat`. -/
def jsRepeat (c : Char) (n : Int) : Except Unit (List Char) :=
  if n < 0 then Except.error () else Except.ok (List.replicate n.toNat c)

/-- The connector-stub test, regex `^\s+[|+]\s*$`. -/
def isConnectorStub (l : List Char) : Bool :=
  let a := l.takeWhile jsWs
  decide (1 ≤ a.length) &&
  (match l.drop a.length with
   | c :: rest => (decide (c = '|') || decide (c = '+')) && rest.all jsWs
   | [] => false)

/-- Lines made only of spaces and structural glyphs (and not blank). -/
def isStructuralOnlyLine (rich : Bool) (l : List Char) : Bool :=
  decide (0 < (jsTrim l).length) &&
  l.all (fun g => decide (g = ' ') || isStructure rich g)

/-- The characters removed when computing `coreContent`, regex
`[+v^<>|]`. -/
def coreStripChar (c : Char) : Bool :=
  decide (c = '+') || decide (c = 'v') || decide (c = '^') ||
  decide (c = '<') || decide (c = '>') || decide (c = '|')

/-- The `[+┌┐└┘├┤┬┴┼]` class used by the empty-structural test. -/
def plusJunction (c : Char) : Bool :=
  ("+┌┐└┘├┤┬┴┼".data).contains c

/-- Marker re-injection applied to a formatted line when the source line
had markers (the shared tail of every return path of the line
formatter). -/
def withMarkers (p : ParsedLine) (nl : List Char) : List Char :=
  if p.had then injectMarkersIntoLine nl p.markers else nl

/-- The one leading structural character stripped as the line prefix. -/
def pfxOf (rich : Bool) (lwi : List Char) : List Char :=
  match lwi with
  | c :: _ => if isStructure rich c then [c] else []
  | [] => []

/-- The one trailing structural character stripped as the line suffix. -/
def sfxOf (rich : Bool) (mid1 : List Char) : List Char :=
  match mid1.getLast? with
  | some c => if isStructure rich c then [c] else []
  | none => []

/-- The centering-marker detection on the trimmed middle: `^...^` of
length over 2, or a leading `^` with more than one character that is not
the literal `^^`. -/
def centeredOf (tm : List Char) : Option (List Char) :=
  if decide (tm.headD '\x00' = '^') && decide (tm.getLastD '\x00' = '^') &&
      decide (2 < tm.length) then some tm
  else if decide (tm.headD '\x00' = '^') && decide (1 < tm.length) &&
      !decide (tm = ['^', '^']) then some tm
  else none

/-- The line with its leading whitespace (`^\s*`) removed. -/
def lwiOf (line : List Char) : List Char :=
  line.drop (line.takeWhile jsWs).length

/-- The middle after removing the one-character structural prefix. -/
def mid1Of (rich : Bool) (lwi : List Char) : List Char :=
  if (pfxOf rich lwi).isEmpty then lwi else lwi.drop 1

/-- The middle after removing the one-character structural suffix. -/
def middleOf (rich : Bool) (mid1 : List Char) : List Char :=
  if (sfxOf rich mid1).isEmpty then mid1 else mid1.dropLast

/-- Total padding of the centering branch:
`max(0, availableWidth - contentWidth)`. -/
def centerPadTotal (rich : Bool) (maxVis : Nat) (p : ParsedLine)
    (cc : List Char) : Int :=
  max 0 (((maxVis : Int) -
    (getTextDisplayWidth rich (p.clean.takeWhile jsWs ++ pfxOf rich (lwiOf p.clean) ++
      sfxOf rich (mid1Of rich (lwiOf p.clean))) : Int)) -
    (getTextDisplayWidth rich cc : Int))

/-- The centering branch of the line formatter. -/
def centerLine (rich : Bool) (maxVis : Nat) (p : ParsedLine) (cc : List Char) :
    Except Unit (List Char) := do
  let lp ← jsRepeat ' ' (centerPadTotal rich maxVis p cc / 2)
  let rp ← jsRepeat ' '
    (centerPadTotal rich maxVis p cc - centerPadTotal rich maxVis p cc / 2)
  Except.ok (withMarkers p (p.clean.takeWhile jsWs ++ pfxOf rich (lwiOf p.clean) ++
    lp ++ cc ++ rp ++ sfxOf rich (mid1Of rich (lwiOf p.clean))))

/-- The fill character of the right-boundary branch: a rule character for
structural middles, otherwise a space. -/
def fillCharOf (rich : Bool) (pfx sfx middle : List Char) : Char :=
  if (!(middle.filter (fun c => !coreStripChar c)).isEmpty &&
      (middle.filter (fun c => !coreStripChar c)).all
        (fun c => decide (c = '-') || decide (c = '─') || decide (c = '═'))) ||
     (middle.isEmpty && pfx.any plusJunction && sfx.any plusJunction) then
    if middle.contains '═' || decide (pfx = ['═']) then '═'
    else if middle.contains '─' || decide (pfx = ['─']) then '─'
    else '-'
  else ' '

/-- The right-boundary fill branch of the line formatter. -/
def fillLine (rich : Bool) (maxVis : Nat) (p : ParsedLine) :
    Except Unit (List Char) := do
  let f ← jsRepeat
    (fillCharOf rich (pfxOf rich (lwiOf p.clean))
      (sfxOf rich (mid1Of rich (lwiOf p.clean)))
      (middleOf rich (mid1Of rich (lwiOf p.clean))))
    ((maxVis : Int) - (getTextDisplayWidth rich p.clean : Int))
  Except.ok (withMarkers p (p.clean.takeWhile jsWs ++ pfxOf rich (lwiOf p.clean) ++
    middleOf rich (mid1Of rich (lwiOf p.clean)) ++ f ++
    sfxOf rich (mid1Of rich (lwiOf p.clean))))

/-- One line of the `autoFormat` normalizer (the body of the inner
`lineStats.map`), over the parsed line and its block's maximum visible
width.  `String.repeat` is modelled fallibly; the source's local
variables (`lineWithoutIndentation`, `prefix`, `suffix`, `middle`,
`diff`, ...) are the named helper functions above. -/
def formatLine (rich : Bool) (maxVis : Nat) (p : ParsedLine) :
    Except Unit (List Char) :=
  if isConnectorStub p.clean then Except.ok (withMarkers p p.clean)
  else if isStructuralOnlyLine rich p.clean then Except.ok (withMarkers p p.clean)
  else if !(isStructure rich ((lwiOf p.clean).headD '\x00') ||
            isStructure rich ((lwiOf p.clean).getLastD '\x00')) &&
          !((lwiOf p.clean).contains '^') then Except.ok (withMarkers p p.clean)
  else if (!(pfxOf rich (lwiOf p.clean)).isEmpty &&
           !(sfxOf rich (mid1Of rich (lwiOf p.clean))).isEmpty &&
           (pfxOf rich (lwiOf p.clean)).all (isStructure rich) &&
           (sfxOf rich (mid1Of rich (lwiOf p.clean))).all (isStructure rich)) &&
          decide (0 < (maxVis : Int) - (getTextDisplayWidth rich p.clean : Int)) &&
          (rich || decide (0 < (p.clean.takeWhile jsWs).length)) then
    Except.ok (withMarkers p p.clean)
  else if decide ((maxVis : Int) - (getTextDisplayWidth rich p.clean : Int) ≤ 0) &&
          (centeredOf (jsTrim (middleOf rich (mid1Of rich (lwiOf p.clean))))).isNone then
    Except.ok (withMarkers p p.clean)
  else
    match centeredOf (jsTrim (middleOf rich (mid1Of rich (lwiOf p.clean)))) with
    | some cc => centerLine rich maxVis p cc
    | none =>
      if !(sfxOf rich (mid1Of rich (lwiOf p.clean))).isEmpty then
        fillLine rich maxVis p
      else Except.ok (withMarkers p p.clean)

/-- A block of the normalizer: a blank separator line or a maximal run of
non-blank lines. -/
inductive BlockS where
  | blank : BlockS
  | filled : List ParsedLine → BlockS
  deriving DecidableEq, Repr

/-- The block builder of `autoFormat` (the `parsedLines.forEach` loop with
its trailing flush). -/
def buildBlocks : List ParsedLine → List ParsedLine → List BlockS
  | acc, [] => if acc.isEmpty then [] else [BlockS.filled acc]
  | acc, p :: rest =>
    if (jsTrim p.clean).isEmpty then
      (if acc.isEmpty then [] else [BlockS.filled acc]) ++
        BlockS.blank :: buildBlocks [] rest
    else buildBlocks (acc ++ [p]) rest

/-- The block's maximum visible width (post marker-stripping). -/
def blockMaxVis (rich : Bool) (ls : List ParsedLine) : Nat :=
  ls.foldl (fun m p => max m (getTextDisplayWidth rich p.clean)) 0

/-- The lines a block contributes to the output: one empty line for a
blank block, otherwise every line formatted against the block maximum. -/
def blockLines (rich : Bool) : BlockS → Except Unit (List (List Char))
  | BlockS.blank => Except.ok [[]]
  | BlockS.filled ls => ls.mapM (formatLine rich (blockMaxVis rich ls))

/-- The per-line parse of `autoFormat` and `render`: zero-width
characters stripped, split on newlines, carriage returns trimmed, then
markers parsed. -/
def parsedLinesOf (s : List Char) : List ParsedLine :=
  (splitOnNl (s.filter (fun c => !isZw c))).map
    (fun l => parseLineMarkers (crStrip l))

/-- `SmoothScrub.autoFormat` over a character list: strip zero-width
characters, parse markers per line, detect rich mode on the clean text,
split into blocks, format each block, and re-join everything with
newlines (the `do`-bind is written as an explicit `match` on the
fallible per-block formatting). -/
def autoFormatE (ascii : List Char) : Except Unit (List Char) :=
  match (buildBlocks [] (parsedLinesOf ascii)).mapM
      (fun b => (blockLines (richModeOfCall ascii) b).map joinNl) with
  | Except.error e => Except.error e
  | Except.ok fbs => Except.ok (joinNl fbs)

theorem jsRepeat_ok {c : Char} {n : Int} (h : 0 ≤ n) :
    jsRepeat c n = Except.ok (List.replicate n.toNat c) := by
  unfold jsRepeat
  rw [if_neg (by omega)]

theorem noNl_replicate {n : Nat} {c : Char} (hc : c ≠ '\n') :
    '\n' ∉ List.replicate n c := by
  intro h
  exact hc (List.eq_of_mem_replicate h).symm

theorem markerChunk_noNl {m : Marker} (hk : validKey m.key = true)
    (hv : isSafeColorValue m.value = true) (ht : jsTrim m.value = m.value) :
    '\n' ∉ markerChunk m := by
  obtain ⟨-, hvals⟩ := safe_value_shape hv ht
  intro hmem
  unfold markerChunk at hmem
  rcases List.mem_cons.mp hmem with h | h
  · exact absurd h (by decide)
  rcases List.mem_cons.mp h with h | h
  · exact absurd h (by decide)
  rw [List.mem_append] at h
  rcases h with h | h
  · rcases validKey_cases hk with hkk | hkk | hkk <;> rw [hkk] at h <;>
      revert h <;> decide
  rcases List.mem_cons.mp h with h | h
  · exact absurd h (by decide)
  rw [List.mem_append] at h
  rcases h with h | h
  · exact absurd (hvals _ h).2.2 (by decide)
  · exact absurd h (by decide)

theorem mem_insertMarker {x m : Marker} :
    ∀ {ms : List Marker}, x ∈ insertMarker m ms → x = m ∨ x ∈ ms := by
  intro ms
  induction ms with
  | nil =>
    intro h
    rw [insertMarker] at h
    exact Or.inl (by simpa using h)
  | cons a t ih =>
    intro h
    rw [insertMarker] at h
    split at h
    · rcases List.mem_cons.mp h with rfl | h2
      · exact Or.inl rfl
      · exact Or.inr h2
    · rcases List.mem_cons.mp h with rfl | h2
      · exact Or.inr (List.mem_cons_self _ _)
      · rcases ih h2 with h3 | h3
        · exact Or.inl h3
        · exact Or.inr (List.mem_cons_of_mem _ h3)

theorem mem_sortMarkers {x : Marker} :
    ∀ {ms : List Marker}, x ∈ sortMarkers ms → x ∈ ms := by
  intro ms
  induction ms with
  | nil =>
    intro h
    rw [sortMarkers] at h
    simp at h
  | cons a t ih =>
    intro h
    rw [sortMarkers] at h
    rcases mem_insertMarker h with rfl | h2
    · exact List.mem_cons_self _ _
    · exact List.mem_cons_of_mem _ (ih h2)

theorem mem_spliceAt {x ch : List Char} {gs : List (List Char)} {pos : Nat}
    (h : x ∈ spliceAt gs pos ch) : x ∈ gs ∨ x = ch := by
  unfold spliceAt at h
  rw [List.mem_append] at h
  rcases h with h | h
  · exact Or.inl (List.take_subset _ _ h)
  · rcases List.mem_cons.mp h with rfl | h2
    · exact Or.inr rfl
    · exact Or.inl (List.drop_subset _ _ h2)

theorem injectFold_mem {x : List Char} :
    ∀ {ms : List Marker} {gs : List (List Char)} {off : Nat},
      x ∈ injectFold gs ms off → x ∈ gs ∨ ∃ m ∈ ms, x = markerChunk m := by
  intro ms
  induction ms with
  | nil =>
    intro gs off h
    rw [injectFold] at h
    exact Or.inl h
  | cons m t ih =>
    intro gs off h
    rw [injectFold] at h
    rcases ih h with h2 | h2
    · rcases mem_spliceAt h2 with h3 | h3
      · exact Or.inl h3
      · exact Or.inr ⟨m, List.mem_cons_self _ _, h3⟩
    · obtain ⟨m2, hm2, hx⟩ := h2
      exact Or.inr ⟨m2, List.mem_cons_of_mem _ hm2, hx⟩

theorem inject_noNl {clean : List Char} {ms : List Marker}
    (hc : '\n' ∉ clean) (hm : ∀ m ∈ ms, '\n' ∉ markerChunk m) :
    '\n' ∉ injectMarkersIntoLine clean ms := by
  unfold injectMarkersIntoLine
  split
  · exact hc
  · intro h
    rw [List.mem_flatten] at h
    obtain ⟨x, hx, hnx⟩ := h
    rcases injectFold_mem hx with h2 | h2
    · rw [List.mem_map] at h2
      obtain ⟨c, hcm, rfl⟩ := h2
      obtain rfl : '\n' = c := by simpa using hnx
      exact hc hcm
    · obtain ⟨m2, hmm, rfl⟩ := h2
      exact hm m2 (mem_sortMarkers hmm) hnx

theorem withMarkers_noNl {p : ParsedLine} {nl : List Char}
    (hnl : '\n' ∉ nl) (hm : ∀ m ∈ p.markers, '\n' ∉ markerChunk m) :
    '\n' ∉ withMarkers p nl := by
  unfold withMarkers
  split
  · exact inject_noNl hnl hm
  · exact hnl

theorem lwiOf_subset {l : List Char} : lwiOf l ⊆ l :=
  List.drop_subset _ _

theorem pfxOf_subset {rich : Bool} {l : List Char} : pfxOf rich l ⊆ l := by
  cases l with
  | nil => exact List.Subset.refl _
  | cons c t =>
    rw [show pfxOf rich (c :: t) = if isStructure rich c then [c] else [] from rfl]
    split
    · intro x hx
      obtain rfl : x = c := by simpa using hx
      exact List.mem_cons_self _ _
    · intro x hx
      simp at hx

theorem sfxOf_subset {rich : Bool} {l : List Char} : sfxOf rich l ⊆ l := by
  unfold sfxOf
  cases hg : l.getLast? with
  | none =>
    intro x hx
    simp at hx
  | some c =>
    dsimp only
    split
    · intro x hx
      obtain rfl : x = c := by simpa using hx
      exact List.mem_of_mem_getLast? (Option.mem_def.mpr hg)
    · intro x hx
      simp at hx

theorem mid1Of_subset {rich : Bool} {l : List Char} : mid1Of rich l ⊆ l := by
  unfold mid1Of
  split
  · exact List.Subset.refl _
  · exact List.drop_subset _ _

theorem middleOf_subset {rich : Bool} {l : List Char} : middleOf rich l ⊆ l := by
  unfold middleOf
  split
  · exact List.Subset.refl _
  · exact List.dropLast_subset _

theorem jsTrim_subset {l : List Char} : jsTrim l ⊆ l := by
  intro x hx
  unfold jsTrim at hx
  rw [List.mem_reverse] at hx
  have h1 : x ∈ (l.dropWhile jsWs).reverse := (List.dropWhile_suffix _).subset hx
  rw [List.mem_reverse] at h1
  exact (List.dropWhile_suffix _).subset h1

theorem centeredOf_eq {tm x : List Char} (h : centeredOf tm = some x) : x = tm := by
  unfold centeredOf at h
  split at h
  · exact (Option.some_inj.mp h).symm
  · split at h
    · exact (Option.some_inj.mp h).symm
    · exact absurd h (by simp)

theorem fillCharOf_ne_nl {rich : Bool} {a b c : List Char} :
    fillCharOf rich a b c ≠ '\n' := by
  unfold fillCharOf
  split
  · split
    · decide
    · split
      · decide
      · decide
  · decide

theorem centerLine_ok_noNl (rich : Bool) (maxVis : Nat) (p : ParsedLine)
    (cc : List Char) (hc : '\n' ∉ p.clean)
    (hm : ∀ m ∈ p.markers, '\n' ∉ markerChunk m) (hcn : '\n' ∉ cc) :
    ∃ t, centerLine rich maxVis p cc = Except.ok t ∧ '\n' ∉ t := by
  have h0 : (0 : Int) ≤ centerPadTotal rich maxVis p cc := le_max_left _ _
  have h1 : (0 : Int) ≤ centerPadTotal rich maxVis p cc / 2 := by omega
  have h2 : (0 : Int) ≤ centerPadTotal rich maxVis p cc -
      centerPadTotal rich maxVis p cc / 2 := by omega
  unfold centerLine
  rw [jsRepeat_ok h1, jsRepeat_ok h2]
  refine ⟨_, rfl, ?_⟩
  refine withMarkers_noNl ?_ hm
  intro h
  simp only [List.mem_append] at h
  rcases h with ((((h | h) | h) | h) | h) | h
  · exact hc ((List.takeWhile_prefix _).subset h)
  · exact hc (lwiOf_subset (pfxOf_subset h))
  · exact noNl_replicate (by decide) h
  · exact hcn h
  · exact noNl_replicate (by decide) h
  · exact hc (lwiOf_subset (mid1Of_subset (sfxOf_subset h)))

theorem fillLine_ok_noNl (rich : Bool) (maxVis : Nat) (p : ParsedLine)
    (hc : '\n' ∉ p.clean) (hm : ∀ m ∈ p.markers, '\n' ∉ markerChunk m)
    (hd : 0 ≤ (maxVis : Int) - (getTextDisplayWidth rich p.clean : Int)) :
    ∃ t, fillLine rich maxVis p = Except.ok t ∧ '\n' ∉ t := by
  unfold fillLine
  rw [jsRepeat_ok hd]
  refine ⟨_, rfl, ?_⟩
  refine withMarkers_noNl ?_ hm
  intro h
  simp only [List.mem_append] at h
  rcases h with (((h | h) | h) | h) | h
  · exact hc ((List.takeWhile_prefix _).subset h)
  · exact hc (lwiOf_subset (pfxOf_subset h))
  · exact hc (lwiOf_subset (mid1Of_subset (middleOf_subset h)))
  · exact noNl_replicate fillCharOf_ne_nl h
  · exact hc (lwiOf_subset (mid1Of_subset (sfxOf_subset h)))

/-- The line formatter always succeeds, and on a newline-free parsed line
with newline-free marker chunks the output line is newline-free. -/
theorem formatLine_ok_noNl (rich : Bool) (maxVis : Nat) (p : ParsedLine)
    (hc : '\n' ∉ p.clean) (hm : ∀ m ∈ p.markers, '\n' ∉ markerChunk m) :
    ∃ t, formatLine rich maxVis p = Except.ok t ∧ '\n' ∉ t := by
  unfold formatLine
  split
  · exact ⟨_, rfl, withMarkers_noNl hc hm⟩
  split
  · exact ⟨_, rfl, withMarkers_noNl hc hm⟩
  split
  · exact ⟨_, rfl, withMarkers_noNl hc hm⟩
  split
  · exact ⟨_, rfl, withMarkers_noNl hc hm⟩
  split
  · exact ⟨_, rfl, withMarkers_noNl hc hm⟩
  next hguard =>
    split
    next cc hcc =>
      refine centerLine_ok_noNl rich maxVis p cc hc hm ?_
      have hcc2 := centeredOf_eq hcc
      subst hcc2
      intro h
      exact hc (lwiOf_subset (mid1Of_subset (middleOf_subset (jsTrim_subset h))))
    next hnone =>
      split
      · refine fillLine_ok_noNl rich maxVis p hc hm ?_
        rw [hnone] at hguard
        simp only [Option.isNone_none, Bool.and_true, decide_eq_true_eq] at hguard
        omega
      · exact ⟨_, rfl, withMarkers_noNl hc hm⟩

theorem scanMarkers_clean_subset {f : Nat} :
    ∀ {cs : List Char} {idx : Nat}, cs.length ≤ f →
      (scanMarkers f cs idx).clean ⊆ cs := by
  induction f with
  | zero =>
    intro cs idx hf
    rw [List.length_eq_zero.mp (Nat.le_zero.mp hf), scanMarkers_nil]
    exact List.Subset.refl _
  | succ f0 ih =>
    intro cs idx hf
    cases cs with
    | nil => rw [scanMarkers_nil]; exact List.Subset.refl _
    | cons c rest =>
      cases hm : tryMatch (c :: rest) with
      | some p =>
        obtain ⟨k, v, after⟩ := p
        obtain ⟨pre, heq, -, hlt⟩ := tryMatch_some hm
        have hfa : after.length ≤ f0 := by
          simp only [List.length_cons] at hf hlt ⊢; omega
        rw [scanMarkers_cons_some hm]
        have hsub : after ⊆ c :: rest := by
          rw [heq]; exact fun x hx => List.mem_append_right _ hx
        by_cases hv : (validKey (toLowerList k) && isSafeColorValue v) = true
        · rw [if_pos hv]
          exact fun x hx => hsub (ih hfa hx)
        · rw [if_neg hv]
          exact fun x hx => hsub (ih hfa hx)
      | none =>
        have hfr : rest.length ≤ f0 := by simp only [List.length_cons] at hf; omega
        rw [scanMarkers_cons_none hm]
        intro x hx
        rcases List.mem_cons.mp hx with rfl | hx2
        · exact List.mem_cons_self _ _
        · exact List.mem_cons_of_mem _ (ih hfr hx2)

theorem splitOnNl_ne_nil (l : List Char) : splitOnNl l ≠ [] := by
  cases l with
  | nil => simp [splitOnNl]
  | cons c rest =>
    rw [splitOnNl]
    split
    · simp
    · cases hs : splitOnNl rest <;> simp

theorem splitOnNl_noNl : ∀ (l : List Char), ∀ x ∈ splitOnNl l, '\n' ∉ x := by
  intro l
  induction l with
  | nil =>
    intro x hx
    obtain rfl : x = [] := by simpa [splitOnNl] using hx
    simp
  | cons c rest ih =>
    intro x hx
    rw [splitOnNl] at hx
    by_cases hc : c = '\n'
    · rw [if_pos hc] at hx
      rcases List.mem_cons.mp hx with rfl | hx2
      · simp
      · exact ih x hx2
    · rw [if_neg hc] at hx
      cases hs : splitOnNl rest with
      | nil => exact absurd hs (splitOnNl_ne_nil rest)
      | cons l0 ls =>
        rw [hs] at hx
        rcases List.mem_cons.mp hx with rfl | hx2
        · intro hmem
          rcases List.mem_cons.mp hmem with heq | hmem2
          · exact hc heq.symm
          · exact ih l0 (hs ▸ List.mem_cons_self _ _) hmem2
        · exact ih x (hs ▸ List.mem_cons_of_mem _ hx2)

theorem crStrip_subset {l : List Char} : crStrip l ⊆ l := by
  unfold crStrip
  split
  · split
    · exact List.dropLast_subset _
    · exact List.Subset.refl _
  · exact List.Subset.refl _

/-- Lines produced by the shared pre-parsing pipeline contain no newline
and carry only well-formed markers. -/
theorem parsedLinesOf_noNl {s : List Char} {p : ParsedLine}
    (hp : p ∈ parsedLinesOf s) :
    '\n' ∉ p.clean ∧ ∀ m ∈ p.markers, '\n' ∉ markerChunk m := by
  unfold parsedLinesOf at hp
  rw [List.mem_map] at hp
  obtain ⟨l, hl, rfl⟩ := hp
  have hlnl : '\n' ∉ l := splitOnNl_noNl _ l hl
  constructor
  · intro hmem
    unfold parseLineMarkers at hmem
    exact hlnl (crStrip_subset (scanMarkers_clean_subset le_rfl hmem))
  · intro m hmm
    obtain ⟨h1, h2, h3⟩ :=
      @scanMarkers_props (crStrip l).length (crStrip l) 0 le_rfl m hmm
    exact markerChunk_noNl h1 h2 h3

theorem mapM_ok_exists {α β : Type} {f : α → Except Unit β} :
    ∀ {l : List α}, (∀ x ∈ l, ∃ y, f x = Except.ok y) →
      ∃ ys, l.mapM f = Except.ok ys := by
  intro l
  induction l with
  | nil => exact fun _ => ⟨[], by rw [List.mapM_nil]; rfl⟩
  | cons a t ih =>
    intro h
    obtain ⟨y, hy⟩ := h a (by simp)
    obtain ⟨ys, hys⟩ := ih (fun x hx => h x (by simp [hx]))
    refine ⟨y :: ys, ?_⟩
    rw [List.mapM_cons, hy, hys]
    rfl

theorem mapM_ok_forall₂ {α β : Type} {f : α → Except Unit β} :
    ∀ {l : List α} {ys : List β}, l.mapM f = Except.ok ys →
      List.Forall₂ (fun x y => f x = Except.ok y) l ys := by
  intro l
  induction l with
  | nil =>
    intro ys h
    rw [List.mapM_nil] at h
    obtain rfl : ([] : List β) = ys := by
      have h2 : (Except.ok ([] : List β) : Except Unit (List β)) = Except.ok ys := h
      simpa using h2
    exact List.Forall₂.nil
  | cons a t ih =>
    intro ys h
    rw [List.mapM_cons] at h
    cases hfa : f a with
    | error e =>
      rw [hfa] at h
      have h2 : (Except.error e : Except Unit (List β)) = Except.ok ys := h
      simp at h2
    | ok y =>
      rw [hfa] at h
      cases hmt : t.mapM f with
      | error e =>
        rw [hmt] at h
        have h2 : (Except.error e : Except Unit (List β)) = Except.ok ys := h
        simp at h2
      | ok ys2 =>
        rw [hmt] at h
        have h2 : (Except.ok (y :: ys2) : Except Unit (List β)) = Except.ok ys := h
        obtain rfl : y :: ys2 = ys := by simpa using h2
        exact List.Forall₂.cons hfa (ih hmt)

theorem buildBlocks_mem :
    ∀ {ps acc : List ParsedLine} {ls : List ParsedLine},
      BlockS.filled ls ∈ buildBlocks acc ps → ∀ p ∈ ls, p ∈ acc ∨ p ∈ ps := by
  intro ps
  induction ps with
  | nil =>
    intro acc ls h p hp
    rw [buildBlocks] at h
    split at h
    · simp at h
    · obtain rfl : ls = acc := by simpa using h
      exact Or.inl hp
  | cons p0 rest ih =>
    intro acc ls h p hp
    rw [buildBlocks] at h
    split at h
    · rw [List.mem_append] at h
      rcases h with h | h
      · split at h
        · simp at h
        · obtain rfl : ls = acc := by simpa using h
          exact Or.inl hp
      · rcases List.mem_cons.mp h with h2 | h2
        · exact absurd h2 (by simp)
        · rcases ih h2 p hp with h3 | h3
          · simp at h3
          · exact Or.inr (List.mem_cons_of_mem _ h3)
    · rcases ih h p hp with h3 | h3
      · rw [List.mem_append] at h3
        rcases h3 with h4 | h4
        · exact Or.inl h4
        · obtain rfl : p = p0 := by simpa using h4
          exact Or.inr (List.mem_cons_self _ _)
      · exact Or.inr (List.mem_cons_of_mem _ h3)

/-! ## Claim C9: the normalizer is total and pure -/

/-- Claim C9: `autoFormat` always succeeds (its only throwing operation,
`String.repeat`, is never reached with a negative count) and is a pure
function: equal inputs give equal outputs. -/
theorem c9_autoformat_total_pure :
    (∀ s : List Char, ∃ t, autoFormatE s = Except.ok t) ∧
    (∀ s₁ s₂ : List Char, s₁ = s₂ → autoFormatE s₁ = autoFormatE s₂) := by
  constructor
  · intro s
    have hblocks : ∀ b ∈ buildBlocks [] (parsedLinesOf s),
        ∃ y, (blockLines (richModeOfCall s) b).map joinNl = Except.ok y := by
      intro b hb
      cases b with
      | blank => exact ⟨joinNl [[]], rfl⟩
      | filled ls =>
        have hmem : ∀ p ∈ ls, p ∈ parsedLinesOf s := by
          intro p hp
          rcases buildBlocks_mem hb p hp with h | h
          · simp at h
          · exact h
        have hok : ∀ p ∈ ls, ∃ y,
            formatLine (richModeOfCall s) (blockMaxVis (richModeOfCall s) ls) p =
              Except.ok y := by
          intro p hp
          obtain ⟨hc, hmk⟩ := parsedLinesOf_noNl (hmem p hp)
          obtain ⟨t, ht, -⟩ := formatLine_ok_noNl _ _ _ hc hmk
          exact ⟨t, ht⟩
        obtain ⟨o, ho⟩ := mapM_ok_exists hok
        refine ⟨joinNl o, ?_⟩
        rw [blockLines, ho]
        rfl
    obtain ⟨fbs, hfbs⟩ := mapM_ok_exists hblocks
    refine ⟨joinNl fbs, ?_⟩
    rw [autoFormatE, hfbs]
  · intro s₁ s₂ h
    rw [h]

/-! ## Claim C10: line-structure preservation of the normalizer -/

theorem splitOnNl_eq_self : ∀ {l : List Char}, '\n' ∉ l → splitOnNl l = [l] := by
  intro l
  induction l with
  | nil => intro h; rfl
  | cons c rest ih =>
    intro h
    have hc : ¬(c = '\n') := fun hc => h (by rw [hc]; exact List.mem_cons_self _ _)
    rw [splitOnNl, if_neg hc, ih (fun hx => h (List.mem_cons_of_mem _ hx))]

theorem splitOnNl_append_nl :
    ∀ (x y : List Char), splitOnNl (x ++ '\n' :: y) = splitOnNl x ++ splitOnNl y := by
  intro x y
  induction x with
  | nil =>
    rw [List.nil_append,
      show splitOnNl ('\n' :: y) = [] :: splitOnNl y from by rw [splitOnNl, if_pos rfl]]
    rfl
  | cons c t ih =>
    rw [List.cons_append, splitOnNl]
    by_cases hc : c = '\n'
    · rw [if_pos hc, ih, splitOnNl, if_pos hc]
      rfl
    · rw [if_neg hc, ih, splitOnNl, if_neg hc]
      cases hs : splitOnNl t with
      | nil => exact absurd hs (splitOnNl_ne_nil t)
      | cons l0 ls => rfl

theorem splitOnNl_joinNl :
    ∀ {bs : List (List Char)}, bs ≠ [] →
      splitOnNl (joinNl bs) = bs.flatMap splitOnNl := by
  intro bs
  induction bs with
  | nil => intro h; exact absurd rfl h
  | cons b t ih =>
    intro h
    cases t with
    | nil =>
      rw [show joinNl [b] = b from rfl, List.flatMap_cons, List.flatMap_nil,
        List.append_nil]
    | cons b2 u =>
      rw [show joinNl (b :: b2 :: u) = b ++ '\n' :: joinNl (b2 :: u) from rfl]
      rw [splitOnNl_append_nl, ih (by simp)]
      simp only [List.flatMap_cons]

theorem splitOnNl_filter {p : Char → Bool} (hp : p '\n' = true) :
    ∀ l : List Char, splitOnNl (l.filter p) = (splitOnNl l).map (List.filter p) := by
  intro l
  induction l with
  | nil => rfl
  | cons c rest ih =>
    by_cases hc : c = '\n'
    · subst hc
      rw [List.filter_cons_of_pos hp, splitOnNl, if_pos rfl, splitOnNl, if_pos rfl,
        List.map_cons, ih]
      rfl
    · by_cases hpc : p c = true
      · rw [List.filter_cons_of_pos hpc, splitOnNl, if_neg hc, splitOnNl, if_neg hc, ih]
        cases hs : splitOnNl rest with
        | nil => exact absurd hs (splitOnNl_ne_nil rest)
        | cons l0 ls =>
          dsimp only [List.map_cons]
          rw [List.filter_cons_of_pos hpc]
      · rw [List.filter_cons_of_neg (by simpa using hpc), ih, splitOnNl, if_neg hc]
        cases hs : splitOnNl rest with
        | nil => exact absurd hs (splitOnNl_ne_nil rest)
        | cons l0 ls =>
          dsimp only [List.map_cons]
          rw [List.filter_cons_of_neg (by simpa using hpc)]

def blockCells : BlockS → List (Option ParsedLine)
  | BlockS.blank => [none]
  | BlockS.filled ls => ls.map some

theorem buildBlocks_cells :
    ∀ (ps acc : List ParsedLine),
      (buildBlocks acc ps).flatMap blockCells =
        acc.map some ++ ps.map
          (fun p => if (jsTrim p.clean).isEmpty = true then none else some p) := by
  intro ps
  induction ps with
  | nil =>
    intro acc
    rw [buildBlocks]
    split
    next ha =>
      rw [List.isEmpty_iff.mp ha]
      rfl
    next ha =>
      rw [List.flatMap_cons, List.flatMap_nil]
      simp [blockCells]
  | cons p rest ih =>
    intro acc
    rw [buildBlocks]
    split
    next hb =>
      rw [List.flatMap_append, List.flatMap_cons, ih []]
      have hb2 : jsTrim p.clean = [] := List.isEmpty_iff.mp hb
      split
      next ha =>
        rw [List.isEmpty_iff.mp ha]
        simp [blockCells, hb2]
      next ha =>
        rw [List.flatMap_cons, List.flatMap_nil]
        simp [blockCells, hb2]
    next hb =>
      rw [ih (acc ++ [p])]
      have hb2 : ¬jsTrim p.clean = [] := fun h0 => hb (by rw [h0]; rfl)
      simp [hb2]

theorem buildBlocks_filled_ne_nil :
    ∀ {ps acc ls : List ParsedLine},
      BlockS.filled ls ∈ buildBlocks acc ps → ls ≠ [] := by
  intro ps
  induction ps with
  | nil =>
    intro acc ls h
    rw [buildBlocks] at h
    split at h
    · simp at h
    next ha =>
      obtain rfl : ls = acc := by simpa using h
      intro hnil
      subst hnil
      exact ha rfl
  | cons p rest ih =>
    intro acc ls h
    rw [buildBlocks] at h
    split at h
    · rw [List.mem_append] at h
      rcases h with h | h
      · split at h
        · simp at h
        next ha =>
          obtain rfl : ls = acc := by simpa using h
          intro hnil
          subst hnil
          exact ha rfl
      · rcases List.mem_cons.mp h with h2 | h2
        · exact absurd h2 (by simp)
        · exact ih h2
    · exact ih h

theorem forall₂_append {γ δ : Type} {R : γ → δ → Prop} :
    ∀ {l₁ : List γ} {l₂ : List δ} {u₁ : List γ} {u₂ : List δ},
      List.Forall₂ R l₁ l₂ → List.Forall₂ R u₁ u₂ →
      List.Forall₂ R (l₁ ++ u₁) (l₂ ++ u₂) := by
  intro l₁ l₂ u₁ u₂ h1 h2
  induction h1 with
  | nil => exact h2
  | cons hS hrest ih => exact List.Forall₂.cons hS ih

theorem forall₂_flatMap {α β γ δ : Type} {S : α → β → Prop} {R : γ → δ → Prop}
    {f : α → List γ} {g : β → List δ} :
    ∀ {as : List α} {bs : List β}, List.Forall₂ S as bs →
      (∀ a b, S a b → List.Forall₂ R (f a) (g b)) →
      List.Forall₂ R (as.flatMap f) (bs.flatMap g) := by
  intro as bs h hab
  induction h with
  | nil => exact List.Forall₂.nil
  | cons hS hrest ih =>
    rw [List.flatMap_cons, List.flatMap_cons]
    exact forall₂_append (hab _ _ hS) ih

theorem forall₂_mem_right {α β : Type} {S : α → β → Prop} :
    ∀ {as : List α} {bs : List β}, List.Forall₂ S as bs →
      ∀ b ∈ bs, ∃ a ∈ as, S a b := by
  intro as bs h
  induction h with
  | nil => intro b hb; simp at hb
  | cons hS hrest ih =>
    intro b hb
    rcases List.mem_cons.mp hb with rfl | hb2
    · exact ⟨_, List.mem_cons_self _ _, hS⟩
    · obtain ⟨a, ha, hSa⟩ := ih b hb2
      exact ⟨a, List.mem_cons_of_mem _ ha, hSa⟩

theorem forall₂_with_mem {α β : Type} {S : α → β → Prop} :
    ∀ {as : List α} {bs : List β}, List.Forall₂ S as bs →
      ∀ as₀ : List α, as ⊆ as₀ →
      List.Forall₂ (fun a b => S a b ∧ a ∈ as₀) as bs := by
  intro as bs h
  induction h with
  | nil => intro as₀ hsub; exact List.Forall₂.nil
  | cons hS hrest ih =>
    intro as₀ hsub
    refine List.Forall₂.cons ⟨hS, hsub (List.mem_cons_self _ _)⟩ ?_
    exact ih as₀ (fun x hx => hsub (List.mem_cons_of_mem _ hx))

theorem forall₂_getElem? {α β : Type} {R : α → β → Prop} :
    ∀ {as : List α} {bs : List β}, List.Forall₂ R as bs →
      ∀ (i : Nat) (a : α), as[i]? = some a → ∃ b, bs[i]? = some b ∧ R a b := by
  intro as
  induction as with
  | nil =>
    intro bs h i a ha
    simp at ha
  | cons a0 t ih =>
    intro bs h i a ha
    cases bs with
    | nil => cases h
    | cons b0 u =>
      rw [List.forall₂_cons] at h
      cases i with
      | zero =>
        rw [List.getElem?_cons_zero] at ha
        obtain rfl : a0 = a := by simpa using ha
        exact ⟨b0, List.getElem?_cons_zero, h.1⟩
      | succ j =>
        rw [List.getElem?_cons_succ] at ha
        obtain ⟨b, hb, hR⟩ := ih h.2 j a ha
        refine ⟨b, ?_, hR⟩
        rw [List.getElem?_cons_succ]
        exact hb

theorem flatMap_splitOnNl_eq_self :
    ∀ {os : List (List Char)}, (∀ o ∈ os, '\n' ∉ o) → os.flatMap splitOnNl = os := by
  intro os
  induction os with
  | nil => intro h; rfl
  | cons o t ih =>
    intro h
    rw [List.flatMap_cons, splitOnNl_eq_self (h o (List.mem_cons_self _ _)),
      ih (fun x hx => h x (List.mem_cons_of_mem _ hx))]
    rfl

theorem forall₂_cells_filled :
    ∀ {as : List ParsedLine} {bs : List (List Char)}, as.length = bs.length →
      List.Forall₂ (fun (c : Option ParsedLine) (l : List Char) => c = none → l = [])
        (as.map some) bs := by
  intro as
  induction as with
  | nil =>
    intro bs h
    obtain rfl : bs = [] := List.length_eq_zero.mp h.symm
    exact List.Forall₂.nil
  | cons a t ih =>
    intro bs h
    cases bs with
    | nil => simp at h
    | cons b u =>
      rw [List.map_cons]
      exact List.Forall₂.cons (fun hx => absurd hx (by simp)) (ih (by simpa using h))

theorem block_cells_lines {rich : Bool} {b : BlockS} {fb : List Char}
    (hb : (blockLines rich b).map joinNl = Except.ok fb)
    (hnn : ∀ ls, b = BlockS.filled ls → ls ≠ [] ∧
      ∀ p ∈ ls, '\n' ∉ p.clean ∧ ∀ m ∈ p.markers, '\n' ∉ markerChunk m) :
    List.Forall₂ (fun (c : Option ParsedLine) (l : List Char) => c = none → l = [])
      (blockCells b) (splitOnNl fb) := by
  cases b with
  | blank =>
    obtain rfl : fb = [] := by
      have h2 : (Except.ok ([] : List Char) : Except Unit (List Char)) = Except.ok fb := hb
      simpa using h2.symm
    rw [show splitOnNl ([] : List Char) = [[]] from rfl,
      show blockCells BlockS.blank = [none] from rfl]
    exact List.Forall₂.cons (fun _ => rfl) List.Forall₂.nil
  | filled ls =>
    obtain ⟨hne, hprops⟩ := hnn ls rfl
    rw [show blockLines rich (BlockS.filled ls) =
      ls.mapM (formatLine rich (blockMaxVis rich ls)) from rfl] at hb
    cases hos : ls.mapM (formatLine rich (blockMaxVis rich ls)) with
    | error e =>
      rw [hos] at hb
      exact Except.noConfusion hb
    | ok os =>
      rw [hos] at hb
      obtain rfl : fb = joinNl os := by
        have h2 : (Except.ok (joinNl os) : Except Unit (List Char)) = Except.ok fb := hb
        simpa using h2.symm
      have hfa := mapM_ok_forall₂ hos
      have hosn : ∀ o ∈ os, '\n' ∉ o := by
        intro o ho
        obtain ⟨p, hp, hfo⟩ := forall₂_mem_right hfa o ho
        obtain ⟨hcl, hmk⟩ := hprops p hp
        obtain ⟨t, ht, htn⟩ := formatLine_ok_noNl rich (blockMaxVis rich ls) p hcl hmk
        rw [ht] at hfo
        obtain rfl : t = o := by simpa using hfo
        exact htn
      have hosne : os ≠ [] := by
        intro h0
        subst h0
        have hlen := hfa.length_eq
        simp only [List.length_nil] at hlen
        exact hne (List.length_eq_zero.mp hlen)
      rw [splitOnNl_joinNl hosne, flatMap_splitOnNl_eq_self hosn,
        show blockCells (BlockS.filled ls) = ls.map some from rfl]
      exact forall₂_cells_filled hfa.length_eq

/-- Claim C10: `autoFormat` preserves the line structure of its input: the
output has exactly as many newline-separated lines as the input, and
every input line that is blank after marker stripping (its marker-free
text trims to the empty string) yields the empty line at the same index
of the output. -/
theorem c10_line_structure (s out : List Char)
    (h : autoFormatE s = Except.ok out) :
    (splitOnNl out).length = (splitOnNl s).length ∧
    ∀ (i : Nat) (l : List Char), (splitOnNl s)[i]? = some l →
      (jsTrim (parseLineMarkers (crStrip (l.filter (fun c => !isZw c)))).clean).isEmpty
        = true →
      (splitOnNl out)[i]? = some [] := by
  unfold autoFormatE at h
  cases hfbs : (buildBlocks [] (parsedLinesOf s)).mapM
      (fun b => (blockLines (richModeOfCall s) b).map joinNl) with
  | error e =>
    rw [hfbs] at h
    have h2 : (Except.error e : Except Unit (List Char)) = Except.ok out := h
    exact Except.noConfusion h2
  | ok fbs =>
    rw [hfbs] at h
    obtain rfl : out = joinNl fbs := by
      have h2 : (Except.ok (joinNl fbs) : Except Unit (List Char)) = Except.ok out := h
      simpa using h2.symm
    have hforall := mapM_ok_forall₂ hfbs
    have hcells := buildBlocks_cells (parsedLinesOf s) []
    rw [List.map_nil, List.nil_append] at hcells
    have hR : List.Forall₂
        (fun (c : Option ParsedLine) (l : List Char) => c = none → l = [])
        ((buildBlocks [] (parsedLinesOf s)).flatMap blockCells)
        (fbs.flatMap splitOnNl) := by
      refine forall₂_flatMap
        (forall₂_with_mem hforall (buildBlocks [] (parsedLinesOf s))
          (List.Subset.refl _)) ?_
      intro b fb hb
      refine block_cells_lines hb.1 ?_
      intro ls hls
      subst hls
      refine ⟨buildBlocks_filled_ne_nil hb.2, ?_⟩
      intro p hp
      have hpm : p ∈ parsedLinesOf s := by
        rcases buildBlocks_mem hb.2 p hp with h0 | h0
        · simp at h0
        · exact h0
      exact parsedLinesOf_noNl hpm
    rw [hcells] at hR
    have hbsne : buildBlocks [] (parsedLinesOf s) ≠ [] := by
      intro h0
      rw [h0] at hcells
      have hps0 : parsedLinesOf s = [] := by
        have h1 : ([] : List (Option ParsedLine)) = (parsedLinesOf s).map _ := hcells
        exact List.map_eq_nil_iff.mp h1.symm
      unfold parsedLinesOf at hps0
      exact splitOnNl_ne_nil _ (List.map_eq_nil_iff.mp hps0)
    have hfbsne : fbs ≠ [] := by
      intro h0
      subst h0
      have hlen := hforall.length_eq
      simp only [List.length_nil] at hlen
      exact hbsne (List.length_eq_zero.mp hlen)
    have hps : parsedLinesOf s = (splitOnNl s).map
        (fun l => parseLineMarkers (crStrip (l.filter (fun c => !isZw c)))) := by
      unfold parsedLinesOf
      rw [splitOnNl_filter (by decide) s, List.map_map]
      rfl
    rw [splitOnNl_joinNl hfbsne]
    constructor
    · have h1 := hR.length_eq
      rw [hps] at h1
      simp only [List.length_map] at h1
      exact h1.symm
    · intro i l hl hblank
      have hcell : ((parsedLinesOf s).map
          (fun p => if (jsTrim p.clean).isEmpty = true then none
            else some p))[i]? = some none := by
        rw [hps, List.getElem?_map, List.getElem?_map, hl]
        simp only [Option.map_some']
        rw [if_pos hblank]
      obtain ⟨e2, he, hRe⟩ := forall₂_getElem? hR i none hcell
      rw [he, hRe rfl]

/-- C10 witness at the concrete input `"a\n\nb"`, whose second line is
blank: the formatted output has three lines and an empty second line. -/
theorem c10_line_structure_witness :
    (splitOnNl "a\n\nb".data).length = (splitOnNl "a\n\nb".data).length ∧
    (splitOnNl "a\n\nb".data)[1]? = some [] := by
  obtain ⟨h1, h2⟩ := c10_line_structure "a\n\nb".data "a\n\nb".data rfl
  exact ⟨h1, h2 1 [] rfl rfl⟩

/-! ## Claim C3: the structural path data of `render` -/

/-- Corner and edge classes of `detectRectangularBoxes`. -/
def isTopLeftCorner (c : Char) : Bool :=
  decide (c = '+') || decide (c = '┌')

/-- Top-right corner glyphs. -/
def isTopRightCorner (c : Char) : Bool :=
  decide (c = '+') || decide (c = '┐')

/-- Bottom-left corner glyphs. -/
def isBottomLeftCorner (c : Char) : Bool :=
  decide (c = '+') || decide (c = '└')

/-- Bottom-right corner glyphs. -/
def isBottomRightCorner (c : Char) : Bool :=
  decide (c = '+') || decide (c = '┘')

/-- Horizontal box edge glyphs. -/
def isHorizontalBoxEdge (c : Char) : Bool :=
  decide (c = '-') || decide (c = '─')

/-- Vertical box edge glyphs. -/
def isVerticalBoxEdge (c : Char) : Bool :=
  decide (c = '|') || decide (c = '│') || decide (c = '+') ||
  decide (c = '├') || decide (c = '┤')

/-- `SmoothScrub.detectRectangularBoxes` over grapheme rows: every
corner-and-perimeter-validated rectangle, with out-of-range lookups
reading as a non-structural character (the source's `?? ''`). -/
def detectRectangularBoxes (lines : List (List Char)) : List DetectedBox :=
  (List.range lines.length).flatMap (fun top =>
    ((lines[top]?).getD []).enum.flatMap (fun lp =>
      if !isTopLeftCorner lp.2 then []
      else
        (List.range' (lp.1 + 2) (((lines[top]?).getD []).length - (lp.1 + 2))).flatMap
          (fun right =>
          if !isTopRightCorner ((((lines[top]?).getD [])[right]?).getD ' ') then []
          else if !(List.range' (lp.1 + 1) (right - (lp.1 + 1))).all
              (fun x => isHorizontalBoxEdge ((((lines[top]?).getD [])[x]?).getD ' ')) then
            []
          else
            (List.range' (top + 2) (lines.length - (top + 2))).filterMap (fun bottom =>
              if !isBottomLeftCorner ((((lines[bottom]?).getD [])[lp.1]?).getD ' ') then
                none
              else if !isBottomRightCorner
                  ((((lines[bottom]?).getD [])[right]?).getD ' ') then none
              else if !(List.range' (lp.1 + 1) (right - (lp.1 + 1))).all (fun x =>
                  isHorizontalBoxEdge ((((lines[bottom]?).getD [])[x]?).getD ' ')) then
                none
              else if !(List.range' (top + 1) (bottom - (top + 1))).all (fun y =>
                  isVerticalBoxEdge ((((lines[y]?).getD [])[lp.1]?).getD ' ') &&
                  isVerticalBoxEdge ((((lines[y]?).getD [])[right]?).getD ' ')) then none
              else some ⟨top, right, bottom, lp.1, (right - lp.1) * (bottom - top)⟩))))

/-- The boxes that receive a `stroke` entry in `render`'s `boxStyles`
map: for every stroke marker, the smallest box enclosing its position. -/
def strokedBoxes (boxes : List DetectedBox) (ps : List ParsedLine) :
    List DetectedBox :=
  ps.enum.flatMap (fun rp =>
    rp.2.markers.filterMap (fun m =>
      if m.key = "stroke".data then findSmallestEnclosingBox boxes rp.1 m.index
      else none))

/-- Whether the grid position `(r, c)` lies on the perimeter of a stroked
box (the `partOfStrokedBox` marking loops). -/
def onStrokedPerimeter (sb : List DetectedBox) (r c : Nat) : Bool :=
  sb.any (fun b =>
    ((decide (r = b.top) || decide (r = b.bottom)) &&
      decide (b.left ≤ c) && decide (c ≤ b.right)) ||
    ((decide (c = b.left) || decide (c = b.right)) &&
      decide (b.top ≤ r) && decide (r ≤ b.bottom)))

/-- One grid row as built by `render`: `currentX` starts at `cw`, each
cell spans `widthUnits * cw` pixels and is centered in its span. -/
def mkRowCells (rich : Bool) (cw ch : Int) (sb : List DetectedBox) (r : Nat) :
    List Char → Nat → Int → List Cell
  | [], _, _ => []
  | g :: rest, colIndex, currentX =>
    ⟨g, currentX, (r : Int) * ch + ch,
      currentX + (getDisplayWidth rich g : Int) * cw / 2,
      (r : Int) * ch + ch + ch / 2,
      (getDisplayWidth rich g : Int) * cw,
      (getDisplayWidth rich g : Int),
      onStrokedPerimeter sb r colIndex⟩ ::
      mkRowCells rich cw ch sb r rest (colIndex + 1)
        (currentX + (getDisplayWidth rich g : Int) * cw)

/-- The full grid `render` builds from its input, including the
`partOfStrokedBox` marking derived from stroke markers. -/
def renderGrid (cw ch : Int) (s : List Char) : List (List Cell) :=
  ((parsedLinesOf s).map (fun p => p.clean)).enum.map (fun rl =>
    mkRowCells (richModeOfCall s) cw ch
      (strokedBoxes
        (detectRectangularBoxes ((parsedLinesOf s).map (fun p => p.clean)))
        (parsedLinesOf s))
      rl.1 rl.2 0 cw)

/-- One SVG path command of the `d` attribute: `M x,y` or `L x,y`. -/
inductive PathCmd where
  | move : Int → Int → PathCmd
  | line : Int → Int → PathCmd
  deriving DecidableEq, Repr

/-- Whether a path command is a line segment. -/
def PathCmd.isLine : PathCmd → Bool
  | PathCmd.line _ _ => true
  | PathCmd.move _ _ => false

/-- `canConnectHorizontally` of pass 1. -/
def canH (rich : Bool) (a b : Cell) : Bool :=
  !(a.stroked && b.stroked) &&
  (isStructure rich a.char && isStructure rich b.char &&
    decide (|b.x - (a.x + a.w)| < 2))

/-- The pass-1 scan over one row: the two nested `while` loops of the
horizontal pass, as a left-to-right scan carrying the previous cell and
whether a chain is open. -/
def hScan (rich : Bool) : Cell → Bool → List Cell → List PathCmd
  | _, _, [] => []
  | prev, inChain, b :: rest =>
    if canH rich prev b then
      (if inChain then [PathCmd.line b.cx b.cy]
       else [PathCmd.move prev.cx prev.cy, PathCmd.line b.cx b.cy]) ++
        hScan rich b true rest
    else hScan rich b false rest

/-- Pass 1 on one row. -/
def hPass (rich : Bool) : List Cell → List PathCmd
  | [] => []
  | a :: rest => hScan rich a false rest

/-- `selectNearest` of `findVerticalNeighbor`: head of the stable sort by
distance, i.e. the leftmost candidate at minimal `|cx - curr.cx|`. -/
def selectNearest (ccx : Int) : List Cell → Option Cell
  | [] => none
  | c :: rest => some (rest.foldl (fun best cand =>
      if |cand.cx - ccx| < |best.cx - ccx| then cand else best) c)

/-- `SmoothScrub.findVerticalNeighbor`: tight tolerance
`|dx| < 0.5 * cw` (written `2 * |dx| < cw`) preferred, relaxed tolerance
`|dx| < 2 * cw` as fallback. -/
def findVerticalNeighbor (rich : Bool) (cw : Int) (curr : Cell)
    (nextRow : List Cell) : Option Cell :=
  if !connectsDown rich curr.char then none
  else
    match selectNearest curr.cx
        ((nextRow.filter (fun cand => connectsUp rich cand.char)).filter
          (fun cand => 2 * |cand.cx - curr.cx| < cw)) with
    | some c => some c
    | none =>
      selectNearest curr.cx
        ((nextRow.filter (fun cand => connectsUp rich cand.char)).filter
          (fun cand => |cand.cx - curr.cx| < 2 * cw))

/-- `SmoothScrub.isAsciiWordChar`: `[A-Za-z0-9]`. -/
def isAsciiWordChar (c : Char) : Bool :=
  (decide (65 ≤ c.toNat) && decide (c.toNat ≤ 90)) ||
  (decide (97 ≤ c.toNat) && decide (c.toNat ≤ 122)) ||
  (decide (48 ≤ c.toNat) && decide (c.toNat ≤ 57))

/-- A character test through an optional character, false on a missing
one (the source's `?? ''`). -/
def optTest (p : Char → Bool) : Option Char → Bool
  | some c => p c
  | none => false

/-- `SmoothScrub.isAsciiVConnector`: a `v` is structural when it has a
horizontal structural neighbor, an incoming vertical neighbor above, or
is not surrounded by word characters. -/
def isAsciiVConnector (cw : Int) (row : List Cell) (colIndex rowIndex : Nat)
    (grid : List (List Cell)) (cell : Cell) : Bool :=
  (optTest (fun c => decide (c = '-') || decide (c = '+'))
      (rowChar? row ((colIndex : Int) - 1)) ||
    optTest (fun c => decide (c = '-') || decide (c = '+'))
      (rowChar? row ((colIndex : Int) + 1))) ||
  (decide (0 < rowIndex) &&
    ((grid.getD (rowIndex - 1) []).any (fun prevCell =>
      (decide (prevCell.char = '|') || decide (prevCell.char = '+')) &&
      decide (findVerticalNeighbor false cw prevCell row = some cell)))) ||
  !(optTest isAsciiWordChar (rowChar? row ((colIndex : Int) - 1)) &&
    optTest isAsciiWordChar (rowChar? row ((colIndex : Int) + 1)))

/-- The `hasIncoming` test of `detectVerticalRuns`: some cell of the
previous row (a non-connector ASCII `v` excluded) flows into this cell. -/
def hasIncoming (rich : Bool) (cw : Int) (grid : List (List Cell))
    (rowIndex : Nat) (row : List Cell) (cell : Cell) : Bool :=
  decide (0 < rowIndex) &&
    ((grid.getD (rowIndex - 1) []).enum.any (fun pc =>
      if !rich && decide (pc.2.char = 'v') &&
          !isAsciiVConnector cw (grid.getD (rowIndex - 1) []) pc.1 (rowIndex - 1)
            grid pc.2 then
        false
      else decide (findVerticalNeighbor rich cw pc.2 row = some cell)))

/-- The `while` loop of `detectVerticalRuns` extending a run downward,
stopping at a missing neighbor or a stroked-to-stroked step. -/
def walkDown (rich : Bool) (cw : Int) : Cell → List (List Cell) → List Cell
  | _, [] => []
  | curr, nextRow :: below =>
    match findVerticalNeighbor rich cw curr nextRow with
    | none => []
    | some nextCell =>
      if curr.stroked && nextCell.stroked then []
      else nextCell :: walkDown rich cw nextCell below

/-- A vertical run: its x center and its top-to-bottom cells. -/
structure VerticalRun where
  cx : Int
  cells : List Cell
  deriving DecidableEq, Repr

/-- The runs started in one row: connectable cells without incoming
connections, extended downward, kept when longer than one cell. -/
def runsOfRow (rich : Bool) (cw : Int) (grid : List (List Cell))
    (rowIndex : Nat) (row : List Cell) : List VerticalRun :=
  row.enum.filterMap (fun p =>
    if !connectsDown rich p.2.char && !connectsUp rich p.2.char then none
    else if !rich && decide (p.2.char = 'v') &&
        !isAsciiVConnector cw row p.1 rowIndex grid p.2 then none
    else if hasIncoming rich cw grid rowIndex row p.2 then none
    else
      let cells := p.2 :: walkDown rich cw p.2 (grid.drop (rowIndex + 1))
      if decide (1 < cells.length) then some ⟨p.2.cx, cells⟩ else none)

/-- `SmoothScrub.detectVerticalRuns`. -/
def detectVerticalRuns (rich : Bool) (cw : Int) (grid : List (List Cell)) :
    List VerticalRun :=
  grid.enum.flatMap (fun r => runsOfRow rich cw grid r.1 r.2)

/-- `SmoothScrub.shouldStartAtCenter`. -/
def shouldStartAtCenter (rich : Bool) (c : Char) : Bool :=
  if rich then ("┌┐┬╔╗╦╓╖╥╒╕╤┼╠╣╬╟╢╫╞╡╪├┤".data).contains c
  else decide (c = '+') || decide (c = 'v')

/-- `SmoothScrub.shouldEndAtCenter`. -/
def shouldEndAtCenter (rich : Bool) (c : Char) : Bool :=
  if rich then ("└┘┴╚╝╩╙╜╨╘╛╧┼╠╣╬╟╢╫╞╡╪├┤".data).contains c
  else decide (c = '+') || decide (c = 'v') || decide (c = '^')

/-- The pass-2 path commands of one vertical run: the M/L span from the
(possibly center-clipped) start to the end, plus degenerate M/L dots for
interior cells off both endpoints. -/
def runCmds (rich : Bool) (ch : Int) (run : VerticalRun) : List PathCmd :=
  match run.cells with
  | [] => []
  | first :: rest =>
    let lastC := (first :: rest).getLastD first
    let startY := if shouldStartAtCenter rich first.char then first.cy
      else first.cy - ch / 2
    let endY := if shouldEndAtCenter rich lastC.char then lastC.cy
      else lastC.cy + ch / 2
    PathCmd.move run.cx startY :: PathCmd.line run.cx endY ::
      ((first :: rest).drop 1).dropLast.flatMap (fun cell =>
        if decide (cell.cy ≠ startY) && decide (cell.cy ≠ endY) then
          [PathCmd.move run.cx cell.cy, PathCmd.line run.cx cell.cy]
        else [])

/-- The path data `d` built by `render`: pass 1 (horizontal segments)
followed by pass 2 (vertical runs). -/
def renderD (cw ch : Int) (s : List Char) : List PathCmd :=
  (renderGrid cw ch s).flatMap (hPass (richModeOfCall s)) ++
    (detectVerticalRuns (richModeOfCall s) cw (renderGrid cw ch s)).flatMap
      (runCmds (richModeOfCall s) ch)

/-- Claim C3: with the default cell size, rendering "-v-" yields path
data with at least one line segment, while rendering "Service" over
"   +" yields empty path data: the v between letters has a horizontal
structural neighbor, but a lone + below a word has neither a horizontal
chain nor a vertical partner. -/
theorem c3_connector_paths :
    ((renderD 12 24 "-v-".data).any PathCmd.isLine) = true ∧
    renderD 12 24 "Service\n   +".data = [] := by
  constructor
  · decide
  · decide

end SmoothScrub
